import Mathlib

/-!
Verification of the registry resolution engine of
`src/vulkan/util/gen_enum_to_str.py` (enum-to-string generator).

The Python data model is embedded shallowly:

* Python `dict`s become insertion-ordered association lists (`dlookup`,
  `dinsert`, `dremove`); a `dict` update of an existing key keeps the key's
  position, which `dinsert` mirrors.
* `VkEnum.add_value` is split into `VkEnum.add_value` (argument dispatch:
  alias / literal / extension offset, exactly as the Python keyword branches)
  and `VkEnum.apply_value` (the tail of the Python function that runs once a
  concrete numeric value is known: record the name, update the canonical-name
  map, and recursively flush pending aliases).  The Python recursion is
  unbounded (a self-referential alias makes it diverge), so the Lean model
  takes a fuel parameter; `VkEnum.run_ops` supplies one more than the number
  of pending-alias keys, which is shown sufficient for the flush cascades the
  theorems below exercise.
* the regular expressions are modelled character-by-character:
  `r'(?<![A-Z])([A-Z])'` applied to `s[1:]` becomes `SHOUT_step`, and the
  `re.search(r'FlagBits[A-Z]*$', name)` assertion becomes
  `flagBitsSuffixCheck` (strip the maximal trailing run of upper-case letters,
  then check for the `FlagBits` suffix; the two are equivalent because
  `FlagBits` ends in a lower-case letter).
-/

/-- Python-dict lookup on an insertion-ordered association list. -/
def dlookup {α : Type} [DecidableEq α] {β : Type} : List (α × β) → α → Option β
  | [], _ => none
  | (k, v) :: t, k' => if k' = k then some v else dlookup t k'

/-- Python-dict assignment `d[k] = v`: overwrite in place, else append. -/
def dinsert {α : Type} [DecidableEq α] {β : Type} : List (α × β) → α → β → List (α × β)
  | [], k, v => [(k, v)]
  | (k', v') :: t, k, v => if k' = k then (k, v) :: t else (k', v') :: dinsert t k v

/-- Python-dict deletion `del d[k]`.  Every pair carrying the key is dropped;
since `dinsert` never duplicates a key, this coincides with deleting the
single entry on every dictionary the model builds. -/
def dremove {α : Type} [DecidableEq α] {β : Type} : List (α × β) → α → List (α × β)
  | [], _ => []
  | (k', v') :: t, k => if k' = k then dremove t k else (k', v') :: dremove t k

/-- One source of a declared constant, replacing the Python keyword-argument
dispatch of `add_value` (`value=`/`bitpos=` both arrive as a literal value,
since `add_value_from_xml` already shifts `1 << bitpos`). -/
inductive ConstantSource : Type
  | literal (value : Int)
  | extensionOffset (extnum offset : Int) (err : Bool)
  | aliasOf (base : String)
deriving DecidableEq

/-- The character walk of `re.sub(r'(?<![A-Z])([A-Z])', r'_\1', t)`: an
underscore is inserted before every upper-case letter whose predecessor inside
`t` is not upper-case (the first character of `t` has no predecessor, so an
upper-case letter there always receives an underscore). -/
def SHOUT_step : Option Char → List Char → List Char
  | _, [] => []
  | prev, c :: rest =>
    if c.isUpper && (match prev with | some p => !p.isUpper | none => true) then
      '_' :: c :: SHOUT_step (some c) rest
    else
      c :: SHOUT_step (some c) rest

/-- Character-list body of `CamelCase_to_SHOUT_CASE`: keep the head, run
the substitution on the tail, upper-case everything (Python `.upper()`;
identifiers are ASCII, where `Char.toUpper` agrees with it). -/
def shoutChars : List Char → List Char
  | [] => []
  | c :: rest => (c :: SHOUT_step none rest).map Char.toUpper

/-- `CamelCase_to_SHOUT_CASE(s)` = `(s[:1] + re.sub(..., s[1:])).upper()`. -/
def CamelCase_to_SHOUT_CASE (s : String) : String :=
  String.mk (shoutChars s.toList)

/-- Python `str.split('_')` on a character list (always non-empty; empty
segments kept, `[[]]` for the empty string). -/
def splitUnderscore : List Char → List (List Char)
  | [] => [[]]
  | c :: rest =>
    let r := splitUnderscore rest
    if c = '_' then [] :: r
    else
      match r with
      | h :: t => (c :: h) :: t
      | [] => [[c]]

/-- Python `'_'.join` on character lists. -/
def joinUnderscore : List (List Char) → List Char
  | [] => []
  | [l] => l
  | l :: rest => l ++ '_' :: joinUnderscore rest

/-- The fixed vendor-tag list of `compute_max_enum_name`. -/
def special_tags : List String := ["AMD", "EXT", "INTEL", "KHR", "NV", "LUNARG"]

/-- `compute_max_enum_name(s)` from the source: shout-case the identifier;
if the last underscore-delimited segment is a vendor tag, re-append it after
`_MAX_ENUM_`, else append `_MAX_ENUM`. -/
def compute_max_enum_name (s : String) : String :=
  let max_enum_name := shoutChars s.toList
  let parts := splitUnderscore max_enum_name
  let last_tag := parts.getLastD []
  if String.mk last_tag ∈ special_tags then
    String.mk (joinUnderscore parts.dropLast ++ ('_' :: "MAX_ENUM_".toList) ++ last_tag)
  else
    String.mk (max_enum_name ++ ('_' :: "MAX_ENUM".toList))

/-- State of one `VkEnum` object: the three dictionaries mutated by
`add_value`, plus the descriptive fields set at construction. -/
structure VkEnum : Type where
  name : String
  bitwidth : Nat
  guard : Option String
  values : List (Int × String)
  name_to_value : List (String × Int)
  name_to_alias_list : List (String × List String)
deriving DecidableEq

/-- `VkEnum(name, bitwidth)` constructor (values/name_to_value/aliases empty). -/
def VkEnum.mk0 (name : String) (bitwidth : Nat) : VkEnum :=
  { name := name, bitwidth := bitwidth, guard := none,
    values := [], name_to_value := [], name_to_alias_list := [] }

/-- Tail of Python `add_value` once `value` is concrete:

    self.name_to_value[name] = value
    if value not in self.values: self.values[value] = name
    elif len(self.values[value]) > len(name): self.values[value] = name
    if name in self.name_to_alias_list:
        for alias in self.name_to_alias_list[name]:
            self.add_value(alias, value)
        del self.name_to_alias_list[name]

The recursive flush keeps the whole entry for `name` alive until after the
loop, exactly as the Python `del` placement does.  `fuel` bounds the flush
recursion depth (the Python code diverges on a self-referential alias; with
fuel `0` the model instead leaves the state unchanged).  The non-recursive
head (record the name, update the canonical-name map) is split out as
`record_value`. -/
def VkEnum.record_value (e : VkEnum) (name : String) (value : Int) : VkEnum :=
  let e1 : VkEnum := { e with name_to_value := dinsert e.name_to_value name value }
  match dlookup e1.values value with
  | none => { e1 with values := dinsert e1.values value name }
  | some prior =>
    if prior.length > name.length then
      { e1 with values := dinsert e1.values value name }
    else e1

def VkEnum.apply_value : Nat → VkEnum → String → Int → VkEnum
  | 0, e, _, _ => e
  | fuel + 1, e, name, value =>
    let e2 := e.record_value name value
    match dlookup e2.name_to_alias_list name with
    | none => e2
    | some alias_list =>
      let e3 := alias_list.foldl (fun acc a => VkEnum.apply_value fuel acc a value) e2
      { e3 with name_to_alias_list := dremove e3.name_to_alias_list name }

/-- Python `add_value`: an alias to an unresolved base is appended to the
pending multimap (`setdefault` + `append`); an alias to a resolved base copies
its value; an extension offset computes
`1000000000 + (extnum - 1) * 1000 + offset`, negated when the error flag is
set; then the concrete value is applied. -/
def VkEnum.add_value (fuel : Nat) (e : VkEnum) (name : String) (src : ConstantSource) : VkEnum :=
  match src with
  | .aliasOf base =>
    match dlookup e.name_to_value base with
    | none =>
      let alias_list := (dlookup e.name_to_alias_list base).getD []
      { e with name_to_alias_list := dinsert e.name_to_alias_list base (alias_list ++ [name]) }
    | some value => VkEnum.apply_value fuel e name value
  | .literal value => VkEnum.apply_value fuel e name value
  | .extensionOffset extnum offset err =>
    let value := 1000000000 + (extnum - 1) * 1000 + offset
    VkEnum.apply_value fuel e name (if err then -value else value)

/-- Number of keys of the pending-alias multimap; `run_ops` provides one more
than this as flush fuel for each declaration. -/
def pending_count (e : VkEnum) : Nat := e.name_to_alias_list.length

/-- Process a whole declaration sequence, as the XML walk feeds `add_value`. -/
def VkEnum.run_ops (e : VkEnum) (ops : List (String × ConstantSource)) : VkEnum :=
  ops.foldl (fun acc p => VkEnum.add_value (pending_count acc + 1) acc p.1 p.2) e

/-- `all_bits_value`: `functools.reduce(lambda a, b: a | b, self.values.keys(), 0)`. -/
def VkEnum.all_bits_value (e : VkEnum) : Int :=
  e.values.foldl (fun a b => Int.lor a b.1) 0

/-- `re.search(r'FlagBits[A-Z]*$', s)`: after removing the maximal trailing
run of upper-case letters, the remainder must end in `FlagBits` (equivalent
to the regex because `FlagBits` ends in a lower-case letter). -/
def flagBitsSuffixCheck (s : String) : Bool :=
  "FlagBits".toList.isSuffixOf ((s.toList.reverse.dropWhile Char.isUpper).reverse)

/-- `all_bits_name` with its two assertions made explicit: a name that does
not start with `Vk` or does not match `FlagBits[A-Z]*$` raises
`AssertionError` (modelled as `.error`). -/
def VkEnum.all_bits_name (e : VkEnum) : Except String String :=
  if "Vk".toList.isPrefixOf e.name.toList && flagBitsSuffixCheck e.name then
    .ok ("VK_ALL_" ++ String.mk (shoutChars (e.name.toList.drop 2)))
  else
    .error "AssertionError in all_bits_name"

example : compute_max_enum_name "VkResult" = "VK_RESULT_MAX_ENUM" := by decide
example : compute_max_enum_name "VkDebugReportObjectTypeEXT"
    = "VK_DEBUG_REPORT_OBJECT_TYPE_MAX_ENUM_EXT" := by decide

/-- `VkExtension`: name, sequence number, optional platform guard. -/
structure VkExtension : Type where
  name : String
  number : Int
  define : Option String
deriving DecidableEq

/-- `VkChainStruct`: struct name, its `sType` discriminant spelling, and the
owning extension, if any. -/
structure VkChainStruct : Type where
  name : String
  stype : String
  extension : Option VkExtension
deriving DecidableEq

/-- `VkObjectType`: handle-discriminant value to display-name table. -/
structure VkObjectType : Type where
  name : String
  enum_to_name : List (Int × String)
deriving DecidableEq

/-- The handle walk at the end of `parse_xml`: each handle's `objtypeenum`
attribute is looked up in `VkObjectType`'s `name_to_value`; a missing name is
a `KeyError` (uncaught, so fatal), otherwise
`obj_types.enum_to_name[enum_val] = object_name.text`. -/
def parse_handles (vkObjectType : VkEnum) :
    List (String × String) → List (Int × String) → Except String (List (Int × String))
  | [], acc => .ok acc
  | (objtypeenum, display) :: rest, acc =>
    match dlookup vkObjectType.name_to_value objtypeenum with
    | none => .error ("KeyError: " ++ objtypeenum)
    | some v => parse_handles vkObjectType rest (dinsert acc v display)

/-- Resolved model handed from `parse_xml` to the emission loop of `main`. -/
structure GenInput : Type where
  enums : List VkEnum
  extensions : List VkExtension
  structs : List VkChainStruct
  bitmasks : List VkEnum
  object_types : List VkObjectType
deriving DecidableEq

/-- One switch case of the per-enum string-conversion function in
`C_TEMPLATE` (text formatting itself is out of the model's scope). -/
def enum_case_lines (e : VkEnum) : List String :=
  e.values.map (fun p => "case " ++ toString p.1 ++ ": return " ++ p.2 ++ ";")

/-- `C_TEMPLATE` rendering: total — no assertion is evaluated by it.
`object_types[0]` is always present because `parse_xml` unconditionally
creates the `"VkObjectType"` entry. -/
def render_c (gi : GenInput) : String :=
  String.join (gi.enums.map (fun e =>
    "vk_" ++ String.mk (e.name.toList.drop 2) ++ "_to_str "
      ++ String.join (enum_case_lines e) ++ " " ++ compute_max_enum_name e.name))
  ++ String.join (gi.structs.map (fun s => s.stype ++ " sizeof " ++ s.name))
  ++ String.join (((gi.object_types.getD 0 ⟨"VkObjectType", []⟩).enum_to_name).map
      (fun p => toString p.1 ++ " " ++ p.2))

/-- `H_TEMPLATE` rendering: total. -/
def render_h (gi : GenInput) : String :=
  String.join (gi.enums.map (fun e =>
    "const char * vk_" ++ String.mk (e.name.toList.drop 2) ++ "_to_str;"))

/-- The all-bits section of `H_DEFINE_TEMPLATE`: bitmask enumerations of
width > 32 are skipped (`<% continue %>`); each remaining one evaluates
`all_bits_name()`, whose assertions may fail, aborting the render. -/
def render_defines_bits : List VkEnum → Except String String
  | [] => .ok ""
  | e :: rest =>
    if e.bitwidth > 32 then render_defines_bits rest
    else
      match e.all_bits_name with
      | .error msg => .error msg
      | .ok n =>
        match render_defines_bits rest with
        | .error msg => .error msg
        | .ok s => .ok ("#define " ++ n ++ " " ++ toString e.all_bits_value ++ "u " ++ s)

/-- `H_DEFINE_TEMPLATE` rendering: extension-number defines, the fallible
all-bits section, then the 64-bit redefinition section (total). -/
def render_defines (gi : GenInput) : Except String String :=
  match render_defines_bits gi.bitmasks with
  | .error msg => .error msg
  | .ok bits =>
    .ok (String.join (gi.extensions.map (fun x =>
          "#define _" ++ x.name ++ "_number (" ++ toString x.number ++ ")"))
      ++ bits
      ++ String.join ((gi.bitmasks.filter (fun e => decide (e.bitwidth ≥ 64))).map (fun e =>
          String.join (e.name_to_value.map (fun p => "#define " ++ p.1 ++ " " ++ toString p.2)))))

/-- The per-template body of `main`'s output loop, in write order. -/
def render_list (gi : GenInput) : List (String × Except String String) :=
  [("vk_enum_to_str.c", .ok (render_c gi)),
   ("vk_enum_to_str.h", .ok (render_h gi)),
   ("vk_enum_defines.h", render_defines gi)]

/-- Result of running `main`'s write loop: the files on disk afterwards (in
write order) and whether the process exited successfully. -/
structure MainOutput : Type where
  written : List (String × String)
  exitOk : Bool
deriving DecidableEq

/-- `main`'s output loop: `open(file_, 'w')` truncates the file *before*
`template.render(...)` runs, so a render-time exception leaves every earlier
artifact fully written and the current one created but empty, and aborts. -/
def write_loop : List (String × Except String String) → MainOutput
  | [] => ⟨[], true⟩
  | (f, r) :: rest =>
    match r with
    | .ok content =>
      let out := write_loop rest
      ⟨(f, content) :: out.written, out.exitOk⟩
    | .error _ => ⟨[(f, "")], false⟩

/-- Whole-run model: all `parse_xml` calls precede the write loop, so a parse
failure writes nothing; a successful parse runs the write loop. -/
def main_model (parsed : Except String GenInput) : MainOutput :=
  match parsed with
  | .error _ => ⟨[], false⟩
  | .ok gi => write_loop (render_list gi)

/-- Stable insertion into a name-sorted list (`sorted(..., key=lambda e: e.name)`). -/
def insertByName {α : Type} (key : α → String) (x : α) : List α → List α
  | [] => [x]
  | y :: t => if key x ≤ key y then x :: y :: t else y :: insertByName key x t

/-- Stable sort by name, modelling Python `sorted` with a name key. -/
def sortByName {α : Type} (key : α → String) : List α → List α
  | [] => []
  | x :: t => insertByName key x (sortByName key t)

/-! ### Association-list lemmas -/

theorem dlookup_dinsert {α : Type} [DecidableEq α] {β : Type} (m : List (α × β)) (k k' : α)
    (v : β) : dlookup (dinsert m k v) k' = if k' = k then some v else dlookup m k' := by
  induction m with
  | nil => simp [dinsert, dlookup]
  | cons p t ih =>
    obtain ⟨a, b⟩ := p
    by_cases hak : a = k
    · subst hak
      by_cases hk' : k' = a <;> simp [dinsert, dlookup, hk']
    · by_cases hk' : k' = a
      · subst hk'
        simp [dinsert, dlookup, hak, Ne.symm hak]
      · simp [dinsert, dlookup, hak, hk', ih]

theorem dinsert_self {α : Type} [DecidableEq α] {β : Type} (m : List (α × β)) (k : α) (v : β)
    (h : dlookup m k = some v) : dinsert m k v = m := by
  induction m with
  | nil => simp [dlookup] at h
  | cons p t ih =>
    obtain ⟨a, b⟩ := p
    by_cases hak : a = k
    · subst hak
      simp [dlookup] at h
      simp [dinsert, h]
    · simp [dlookup, Ne.symm hak] at h
      simp [dinsert, hak, ih h]

theorem dlookup_dremove {α : Type} [DecidableEq α] {β : Type} (m : List (α × β)) (k k' : α) :
    dlookup (dremove m k) k' = if k' = k then none else dlookup m k' := by
  induction m with
  | nil => simp [dremove, dlookup]
  | cons p t ih =>
    obtain ⟨a, b⟩ := p
    by_cases hak : a = k
    · subst hak
      by_cases hk' : k' = a
      · subst hk'
        simp [dremove, dlookup, ih]
      · simp [dremove, dlookup, hk', ih]
    · by_cases hk' : k' = a
      · subst hk'
        simp [dremove, dlookup, hak, ih, Ne.symm hak]
      · simp [dremove, dlookup, hak, hk', ih]

theorem dlookup_ne_none_iff {α : Type} [DecidableEq α] {β : Type} (m : List (α × β)) (k : α) :
    dlookup m k ≠ none ↔ k ∈ m.map Prod.fst := by
  induction m with
  | nil => simp [dlookup]
  | cons p t ih =>
    obtain ⟨a, b⟩ := p
    by_cases hk : k = a
    · subst hk
      simp [dlookup]
    · simp [dlookup, hk, ih]

theorem dlookup_mem {α : Type} [DecidableEq α] {β : Type} {m : List (α × β)} {k : α} {v : β}
    (h : dlookup m k = some v) : (k, v) ∈ m := by
  induction m with
  | nil => simp [dlookup] at h
  | cons p t ih =>
    obtain ⟨a, b⟩ := p
    by_cases hk : k = a
    · subst hk
      simp [dlookup] at h
      simp [h]
    · simp [dlookup, hk] at h
      exact List.mem_cons_of_mem _ (ih h)

/-! ### Bitwise-or algebra on `Int`, via `testBit` extensionality -/

theorem int_testBit_ext {m n : Int} (h : ∀ k, m.testBit k = n.testBit k) : m = n := by
  have absurd_mix : ∀ a b : ℕ, ¬ (∀ k, (Int.ofNat a).testBit k = (Int.negSucc b).testBit k) := by
    intro a b hab
    have ha : a < 2 ^ (a + b) := lt_of_lt_of_le (Nat.lt_two_pow a)
      (Nat.pow_le_pow_right (by norm_num) (Nat.le_add_right a b))
    have hb : b < 2 ^ (a + b) := lt_of_lt_of_le (Nat.lt_two_pow b)
      (Nat.pow_le_pow_right (by norm_num) (Nat.le_add_left b a))
    have := hab (a + b)
    simp only [Int.testBit] at this
    rw [Nat.testBit_eq_false_of_lt ha, Nat.testBit_eq_false_of_lt hb] at this
    simp at this
  match m, n with
  | .ofNat a, .ofNat b =>
    have : a = b := Nat.eq_of_testBit_eq (fun k => by simpa [Int.testBit] using h k)
    simp [this]
  | .negSucc a, .negSucc b =>
    have : a = b := Nat.eq_of_testBit_eq (fun k => by
      have hk := h k
      simp only [Int.testBit] at hk
      exact Bool.not_inj hk)
    simp [this]
  | .ofNat a, .negSucc b => exact absurd h (absurd_mix a b)
  | .negSucc a, .ofNat b => exact absurd (fun k => (h k).symm) (absurd_mix b a)

theorem intLor_comm (m n : Int) : Int.lor m n = Int.lor n m :=
  int_testBit_ext fun k => by rw [Int.testBit_lor, Int.testBit_lor, Bool.or_comm]

theorem intLor_assoc (m n p : Int) : Int.lor (Int.lor m n) p = Int.lor m (Int.lor n p) :=
  int_testBit_ext fun k => by
    rw [Int.testBit_lor, Int.testBit_lor, Int.testBit_lor, Int.testBit_lor, Bool.or_assoc]

theorem intLor_self (m : Int) : Int.lor m m = m :=
  int_testBit_ext fun k => by rw [Int.testBit_lor, Bool.or_self]

theorem int_zero_testBit (k : ℕ) : Int.testBit 0 k = false := by
  show Int.testBit (Int.ofNat 0) k = false
  simp [Int.testBit]

theorem intLor_zero (m : Int) : Int.lor m 0 = m :=
  int_testBit_ext fun k => by rw [Int.testBit_lor, int_zero_testBit, Bool.or_false]

theorem int_zero_lor (m : Int) : Int.lor 0 m = m :=
  int_testBit_ext fun k => by rw [Int.testBit_lor, int_zero_testBit, Bool.false_or]

/-- Right fold of bitwise or, used to reason about `all_bits_value`. -/
def orList : List Int → Int :=
  List.foldr (fun v acc => Int.lor v acc) 0

theorem orList_nil : orList [] = 0 := rfl

theorem orList_cons (a : Int) (t : List Int) : orList (a :: t) = Int.lor a (orList t) := rfl

theorem orList_foldl (l : List Int) (a : Int) :
    l.foldl (fun x y => Int.lor x y) a = Int.lor a (orList l) := by
  induction l generalizing a with
  | nil => simp [orList, intLor_zero]
  | cons b t ih =>
    rw [List.foldl_cons, orList_cons, ih, ← intLor_assoc]

theorem orList_absorb {a : Int} {l : List Int} (h : a ∈ l) : Int.lor a (orList l) = orList l := by
  induction l with
  | nil => simp at h
  | cons b t ih =>
    rcases List.mem_cons.mp h with hb | ht
    · subst hb
      rw [orList_cons, ← intLor_assoc, intLor_self]
    · rw [orList_cons, ← intLor_assoc, intLor_comm a b, intLor_assoc, ih ht]

theorem orList_subset {l₁ l₂ : List Int} (h : ∀ x ∈ l₁, x ∈ l₂) :
    Int.lor (orList l₁) (orList l₂) = orList l₂ := by
  induction l₁ with
  | nil => rw [orList_nil, int_zero_lor]
  | cons a t ih =>
    rw [orList_cons, intLor_assoc, ih (fun x hx => h x (List.mem_cons_of_mem _ hx))]
    exact orList_absorb (h a (List.mem_cons_self a t))

theorem orList_eq_of_mem_iff {l₁ l₂ : List Int} (h : ∀ x, x ∈ l₁ ↔ x ∈ l₂) :
    orList l₁ = orList l₂ := by
  have h₁ : Int.lor (orList l₁) (orList l₂) = orList l₂ :=
    orList_subset (fun x hx => (h x).mp hx)
  have h₂ : Int.lor (orList l₂) (orList l₁) = orList l₁ :=
    orList_subset (fun x hx => (h x).mpr hx)
  rw [intLor_comm] at h₂
  exact h₂.symm.trans h₁

/-! ### `record_value` characterization -/

theorem VkEnum.record_value_ntv (e : VkEnum) (n : String) (v : Int) :
    (e.record_value n v).name_to_value = dinsert e.name_to_value n v := by
  simp only [VkEnum.record_value]
  split
  · rfl
  · split <;> rfl

theorem VkEnum.record_value_pending (e : VkEnum) (n : String) (v : Int) :
    (e.record_value n v).name_to_alias_list = e.name_to_alias_list := by
  simp only [VkEnum.record_value]
  split
  · rfl
  · split <;> rfl

theorem VkEnum.record_value_name (e : VkEnum) (n : String) (v : Int) :
    (e.record_value n v).name = e.name := by
  simp only [VkEnum.record_value]
  split
  · rfl
  · split <;> rfl

theorem VkEnum.record_value_bitwidth (e : VkEnum) (n : String) (v : Int) :
    (e.record_value n v).bitwidth = e.bitwidth := by
  simp only [VkEnum.record_value]
  split
  · rfl
  · split <;> rfl

theorem VkEnum.record_value_guard (e : VkEnum) (n : String) (v : Int) :
    (e.record_value n v).guard = e.guard := by
  simp only [VkEnum.record_value]
  split
  · rfl
  · split <;> rfl

theorem VkEnum.record_value_values_eq (e : VkEnum) (n : String) (v : Int) :
    (e.record_value n v).values =
      match dlookup e.values v with
      | none => dinsert e.values v n
      | some prior => if prior.length > n.length then dinsert e.values v n else e.values := by
  simp only [VkEnum.record_value]
  cases h : dlookup e.values v with
  | none => simp [h]
  | some prior =>
    simp only [h]
    split <;> rfl

/-- After `record_value`, the canonical name at key `v` is the previous entry
if it was at most as long as `n`, else `n`. -/
theorem VkEnum.record_value_values_at (e : VkEnum) (n : String) (v : Int) :
    dlookup (e.record_value n v).values v =
      some (match dlookup e.values v with
            | none => n
            | some prior => if prior.length > n.length then n else prior) := by
  rw [VkEnum.record_value_values_eq]
  cases h : dlookup e.values v with
  | none => simp [dlookup_dinsert]
  | some prior =>
    by_cases hl : prior.length > n.length
    · simp [hl, dlookup_dinsert]
    · simp [hl, h]

theorem VkEnum.record_value_values_other (e : VkEnum) (n : String) (v v2 : Int)
    (hv : v2 ≠ v) : dlookup (e.record_value n v).values v2 = dlookup e.values v2 := by
  rw [VkEnum.record_value_values_eq]
  cases h : dlookup e.values v with
  | none => simp [dlookup_dinsert, hv]
  | some prior =>
    by_cases hl : prior.length > n.length
    · simp [hl, dlookup_dinsert, hv]
    · simp [hl]

theorem VkEnum.record_value_ntv_lookup (e : VkEnum) (n : String) (v : Int) (m : String) :
    dlookup (e.record_value n v).name_to_value m =
      if m = n then some v else dlookup e.name_to_value m := by
  rw [VkEnum.record_value_ntv, dlookup_dinsert]

/-! ### `apply_value` unfolding -/

theorem VkEnum.apply_value_zero (e : VkEnum) (n : String) (v : Int) :
    VkEnum.apply_value 0 e n v = e := rfl

theorem VkEnum.apply_value_succ_none {e : VkEnum} {n : String} (f : Nat) (v : Int)
    (h : dlookup e.name_to_alias_list n = none) :
    VkEnum.apply_value (f + 1) e n v = e.record_value n v := by
  simp only [VkEnum.apply_value, VkEnum.record_value_pending, h]

theorem VkEnum.apply_value_succ_some {e : VkEnum} {n : String} {l : List String} (f : Nat)
    (v : Int) (h : dlookup e.name_to_alias_list n = some l) :
    VkEnum.apply_value (f + 1) e n v =
      (let e3 := l.foldl (fun acc a => VkEnum.apply_value f acc a v) (e.record_value n v)
      { e3 with name_to_alias_list := dremove e3.name_to_alias_list n }) := by
  simp only [VkEnum.apply_value, VkEnum.record_value_pending, h]

/-! ### Pointwise facts about the flush cascade

Each lemma below holds for every fuel value; fuel only limits how much of the
cascade runs, never what kind of step it takes. -/

theorem dremove_sublist {α : Type} [DecidableEq α] {β : Type} (m : List (α × β)) (k : α) :
    List.Sublist (dremove m k) m := by
  induction m with
  | nil => simp [dremove]
  | cons p t ih =>
    obtain ⟨a, b⟩ := p
    by_cases hak : a = k
    · simp only [dremove, if_pos hak]
      exact ih.cons _
    · simp only [dremove, if_neg hak]
      exact ih.cons₂ _

theorem sublist_flatMap {α β : Type} {l₁ l₂ : List α} (f : α → List β)
    (h : List.Sublist l₁ l₂) : List.Sublist (l₁.flatMap f) (l₂.flatMap f) := by
  induction h with
  | slnil => simp
  | cons a _ ih =>
    rw [List.flatMap_cons]
    exact ih.trans (List.sublist_append_right _ _)
  | cons₂ a _ ih =>
    rw [List.flatMap_cons, List.flatMap_cons]
    exact ih.append_left _

theorem VkEnum.apply_ntv_or (fuel : Nat) (v : Int) :
    ∀ (e : VkEnum) (n m : String),
      dlookup (VkEnum.apply_value fuel e n v).name_to_value m = dlookup e.name_to_value m ∨
      dlookup (VkEnum.apply_value fuel e n v).name_to_value m = some v := by
  induction fuel with
  | zero => intro e n m; exact Or.inl rfl
  | succ f ih =>
    have aux : ∀ (l : List String) (acc : VkEnum) (m : String),
        dlookup ((l.foldl (fun acc a => VkEnum.apply_value f acc a v) acc)).name_to_value m
            = dlookup acc.name_to_value m ∨
        dlookup ((l.foldl (fun acc a => VkEnum.apply_value f acc a v) acc)).name_to_value m
            = some v := by
      intro l
      induction l with
      | nil => intro acc m; exact Or.inl rfl
      | cons a t iht =>
        intro acc m
        rw [List.foldl_cons]
        rcases iht (VkEnum.apply_value f acc a v) m with h1 | h1
        · rw [h1]
          exact ih acc a m
        · exact Or.inr h1
    intro e n m
    cases hl : dlookup e.name_to_alias_list n with
    | none =>
      rw [VkEnum.apply_value_succ_none f v hl, VkEnum.record_value_ntv_lookup]
      by_cases hm : m = n
      · simp [hm]
      · simp [hm]
    | some l =>
      rw [VkEnum.apply_value_succ_some f v hl]
      dsimp only
      rcases aux l (e.record_value n v) m with h1 | h1
      · rw [h1, VkEnum.record_value_ntv_lookup]
        by_cases hm : m = n <;> simp [hm]
      · exact Or.inr h1

theorem VkEnum.apply_ntv_pres_v (fuel : Nat) (e : VkEnum) (n : String) (v : Int) (m : String)
    (h : dlookup e.name_to_value m = some v) :
    dlookup (VkEnum.apply_value fuel e n v).name_to_value m = some v := by
  rcases VkEnum.apply_ntv_or fuel v e n m with h1 | h1
  · rw [h1, h]
  · exact h1

theorem VkEnum.apply_ntv_ne_none (fuel : Nat) (e : VkEnum) (n : String) (v : Int) (m : String)
    (h : dlookup e.name_to_value m ≠ none) :
    dlookup (VkEnum.apply_value fuel e n v).name_to_value m ≠ none := by
  rcases VkEnum.apply_ntv_or fuel v e n m with h1 | h1
  · rw [h1]; exact h
  · rw [h1]; exact Option.some_ne_none v

theorem VkEnum.foldl_ntv_pres_v (f : Nat) (v : Int) (l : List String) :
    ∀ (acc : VkEnum) (m : String), dlookup acc.name_to_value m = some v →
      dlookup ((l.foldl (fun acc a => VkEnum.apply_value f acc a v) acc)).name_to_value m
        = some v := by
  induction l with
  | nil => intro acc m h; exact h
  | cons a t iht =>
    intro acc m h
    rw [List.foldl_cons]
    exact iht _ m (VkEnum.apply_ntv_pres_v f acc a v m h)

theorem VkEnum.foldl_ntv_ne_none (f : Nat) (v : Int) (l : List String) :
    ∀ (acc : VkEnum) (m : String), dlookup acc.name_to_value m ≠ none →
      dlookup ((l.foldl (fun acc a => VkEnum.apply_value f acc a v) acc)).name_to_value m
        ≠ none := by
  induction l with
  | nil => intro acc m h; exact h
  | cons a t iht =>
    intro acc m h
    rw [List.foldl_cons]
    exact iht _ m (VkEnum.apply_ntv_ne_none f acc a v m h)

/-- With at least one unit of fuel, `apply_value` records `name ↦ value`, and
the flush cascade never displaces it (every cascade write carries `value`). -/
theorem VkEnum.apply_ntv_self (f : Nat) (e : VkEnum) (n : String) (v : Int) :
    dlookup (VkEnum.apply_value (f + 1) e n v).name_to_value n = some v := by
  have hrec : dlookup (e.record_value n v).name_to_value n = some v := by
    rw [VkEnum.record_value_ntv_lookup, if_pos rfl]
  cases hl : dlookup e.name_to_alias_list n with
  | none => rw [VkEnum.apply_value_succ_none f v hl]; exact hrec
  | some l =>
    rw [VkEnum.apply_value_succ_some f v hl]
    dsimp only
    exact VkEnum.foldl_ntv_pres_v f v l _ n hrec

theorem VkEnum.apply_pending_sublist (fuel : Nat) (v : Int) :
    ∀ (e : VkEnum) (n : String),
      List.Sublist (VkEnum.apply_value fuel e n v).name_to_alias_list e.name_to_alias_list := by
  induction fuel with
  | zero => intro e n; exact List.Sublist.refl _
  | succ f ih =>
    have aux : ∀ (l : List String) (acc : VkEnum),
        List.Sublist ((l.foldl (fun acc a => VkEnum.apply_value f acc a v) acc)).name_to_alias_list
          acc.name_to_alias_list := by
      intro l
      induction l with
      | nil => intro acc; exact List.Sublist.refl _
      | cons a t iht =>
        intro acc
        rw [List.foldl_cons]
        exact (iht _).trans (ih acc a)
    intro e n
    cases hl : dlookup e.name_to_alias_list n with
    | none =>
      rw [VkEnum.apply_value_succ_none f v hl, VkEnum.record_value_pending]
    | some l =>
      rw [VkEnum.apply_value_succ_some f v hl]
      dsimp only
      refine (dremove_sublist _ _).trans ?_
      have := aux l (e.record_value n v)
      rw [VkEnum.record_value_pending] at this
      exact this

theorem VkEnum.apply_pending_or_none (fuel : Nat) (v : Int) :
    ∀ (e : VkEnum) (n k : String),
      dlookup (VkEnum.apply_value fuel e n v).name_to_alias_list k
          = dlookup e.name_to_alias_list k ∨
      dlookup (VkEnum.apply_value fuel e n v).name_to_alias_list k = none := by
  induction fuel with
  | zero => intro e n k; exact Or.inl rfl
  | succ f ih =>
    have aux : ∀ (l : List String) (acc : VkEnum) (k : String),
        dlookup ((l.foldl (fun acc a => VkEnum.apply_value f acc a v) acc)).name_to_alias_list k
            = dlookup acc.name_to_alias_list k ∨
        dlookup ((l.foldl (fun acc a => VkEnum.apply_value f acc a v) acc)).name_to_alias_list k
            = none := by
      intro l
      induction l with
      | nil => intro acc k; exact Or.inl rfl
      | cons a t iht =>
        intro acc k
        rw [List.foldl_cons]
        rcases iht (VkEnum.apply_value f acc a v) k with h1 | h1
        · rw [h1]
          exact ih acc a k
        · exact Or.inr h1
    intro e n k
    cases hl : dlookup e.name_to_alias_list n with
    | none =>
      rw [VkEnum.apply_value_succ_none f v hl, VkEnum.record_value_pending]
      exact Or.inl rfl
    | some l =>
      rw [VkEnum.apply_value_succ_some f v hl]
      dsimp only
      rw [dlookup_dremove]
      by_cases hk : k = n
      · simp [hk]
      · rw [if_neg hk]
        have h2 := aux l (e.record_value n v) k
        rw [VkEnum.record_value_pending] at h2
        exact h2

theorem VkEnum.foldl_pending_or_none (f : Nat) (v : Int) (l : List String) :
    ∀ (acc : VkEnum) (k : String),
      dlookup ((l.foldl (fun acc a => VkEnum.apply_value f acc a v) acc)).name_to_alias_list k
          = dlookup acc.name_to_alias_list k ∨
      dlookup ((l.foldl (fun acc a => VkEnum.apply_value f acc a v) acc)).name_to_alias_list k
          = none := by
  induction l with
  | nil => intro acc k; exact Or.inl rfl
  | cons a t iht =>
    intro acc k
    rw [List.foldl_cons]
    rcases iht (VkEnum.apply_value f acc a v) k with h1 | h1
    · rw [h1]
      exact VkEnum.apply_pending_or_none f v acc a k
    · exact Or.inr h1

theorem VkEnum.foldl_pending_none_pres (f : Nat) (v : Int) (l : List String) (acc : VkEnum)
    (k : String) (h : dlookup acc.name_to_alias_list k = none) :
    dlookup ((l.foldl (fun acc a => VkEnum.apply_value f acc a v) acc)).name_to_alias_list k
      = none := by
  rcases VkEnum.foldl_pending_or_none f v l acc k with h1 | h1
  · rw [h1, h]
  · exact h1

/-- A pending key that disappears during a cascade belongs to a name that the
cascade resolved (the deletion directly follows the insertion of its name). -/
theorem VkEnum.apply_pending_del (fuel : Nat) (v : Int) :
    ∀ (e : VkEnum) (n k : String),
      dlookup (VkEnum.apply_value fuel e n v).name_to_alias_list k = none →
      dlookup e.name_to_alias_list k = none ∨
      dlookup (VkEnum.apply_value fuel e n v).name_to_value k ≠ none := by
  induction fuel with
  | zero => intro e n k h; exact Or.inl h
  | succ f ih =>
    have aux : ∀ (l : List String) (acc : VkEnum) (k : String),
        dlookup ((l.foldl (fun acc a => VkEnum.apply_value f acc a v) acc)).name_to_alias_list k
            = none →
        dlookup acc.name_to_alias_list k = none ∨
        dlookup ((l.foldl (fun acc a => VkEnum.apply_value f acc a v) acc)).name_to_value k
            ≠ none := by
      intro l
      induction l with
      | nil => intro acc k h; exact Or.inl h
      | cons a t iht =>
        intro acc k h
        rw [List.foldl_cons] at h ⊢
        rcases iht (VkEnum.apply_value f acc a v) k h with h1 | h1
        · rcases ih acc a k h1 with h2 | h2
          · exact Or.inl h2
          · exact Or.inr (VkEnum.foldl_ntv_ne_none f v t _ k h2)
        · exact Or.inr h1
    intro e n k h
    cases hl : dlookup e.name_to_alias_list n with
    | none =>
      rw [VkEnum.apply_value_succ_none f v hl, VkEnum.record_value_pending] at h
      exact Or.inl h
    | some l =>
      have hEq := VkEnum.apply_value_succ_some f v hl
      have hpnd : (VkEnum.apply_value (f + 1) e n v).name_to_alias_list
          = dremove ((l.foldl (fun acc a => VkEnum.apply_value f acc a v)
              (e.record_value n v))).name_to_alias_list n := by rw [hEq]
      have hntv : (VkEnum.apply_value (f + 1) e n v).name_to_value
          = ((l.foldl (fun acc a => VkEnum.apply_value f acc a v)
              (e.record_value n v))).name_to_value := by rw [hEq]
      by_cases hk : k = n
      · subst hk
        refine Or.inr ?_
        rw [VkEnum.apply_ntv_self f e k v]
        exact Option.some_ne_none v
      · rw [hpnd, dlookup_dremove, if_neg hk] at h
        rcases aux l (e.record_value n v) k h with h1 | h1
        · rw [VkEnum.record_value_pending] at h1
          exact Or.inl h1
        · rw [hntv]
          exact Or.inr h1

/-- A name newly resolved by a cascade is either the cascade's root or was
pending in some alias list beforehand. -/
theorem VkEnum.apply_ntv_new (fuel : Nat) (v : Int) :
    ∀ (e : VkEnum) (n m : String),
      dlookup e.name_to_value m = none →
      dlookup (VkEnum.apply_value fuel e n v).name_to_value m ≠ none →
      m = n ∨ ∃ p ∈ e.name_to_alias_list, m ∈ p.2 := by
  induction fuel with
  | zero => intro e n m h1 h2; exact absurd h1 h2
  | succ f ih =>
    have aux : ∀ (l : List String) (acc : VkEnum) (m : String),
        dlookup acc.name_to_value m = none →
        dlookup ((l.foldl (fun acc a => VkEnum.apply_value f acc a v) acc)).name_to_value m
            ≠ none →
        m ∈ l ∨ ∃ p ∈ acc.name_to_alias_list, m ∈ p.2 := by
      intro l
      induction l with
      | nil => intro acc m h1 h2; exact absurd h1 h2
      | cons a t iht =>
        intro acc m h1 h2
        rw [List.foldl_cons] at h2
        by_cases hmid : dlookup (VkEnum.apply_value f acc a v).name_to_value m = none
        · rcases iht (VkEnum.apply_value f acc a v) m hmid h2 with h3 | h3
          · exact Or.inl (List.mem_cons_of_mem a h3)
          · obtain ⟨p, hp, hmp⟩ := h3
            exact Or.inr ⟨p, (VkEnum.apply_pending_sublist f v acc a).subset hp, hmp⟩
        · rcases ih acc a m h1 hmid with h3 | h3
          · exact Or.inl (h3 ▸ List.mem_cons_self m t)
          · exact Or.inr h3
    intro e n m h1 h2
    by_cases hm : m = n
    · exact Or.inl hm
    cases hl : dlookup e.name_to_alias_list n with
    | none =>
      rw [VkEnum.apply_value_succ_none f v hl, VkEnum.record_value_ntv_lookup,
        if_neg hm] at h2
      exact absurd h1 h2
    | some l =>
      have hEq := VkEnum.apply_value_succ_some f v hl
      have hntv : (VkEnum.apply_value (f + 1) e n v).name_to_value
          = ((l.foldl (fun acc a => VkEnum.apply_value f acc a v)
              (e.record_value n v))).name_to_value := by rw [hEq]
      rw [hntv] at h2
      have hacc : dlookup (e.record_value n v).name_to_value m = none := by
        rw [VkEnum.record_value_ntv_lookup, if_neg hm]
        exact h1
      rcases aux l (e.record_value n v) m hacc h2 with h3 | h3
      · exact Or.inr ⟨(n, l), dlookup_mem hl, h3⟩
      · obtain ⟨p, hp, hmp⟩ := h3
        rw [VkEnum.record_value_pending] at hp
        exact Or.inr ⟨p, hp, hmp⟩

/-- Frame lemma: a cascade rooted outside a set of names, whose pending lists
also avoid that set, leaves the resolved value of every name in the set
untouched. -/
theorem VkEnum.apply_ntv_frame (fuel : Nat) (v : Int) (N : String → Prop) :
    ∀ (e : VkEnum) (n : String), ¬ N n →
      (∀ p ∈ e.name_to_alias_list, ∀ a ∈ p.2, ¬ N a) →
      ∀ m, N m →
        dlookup (VkEnum.apply_value fuel e n v).name_to_value m
          = dlookup e.name_to_value m := by
  induction fuel with
  | zero => intro e n _ _ m _; rfl
  | succ f ih =>
    have aux : ∀ (l : List String) (acc : VkEnum),
        (∀ a ∈ l, ¬ N a) →
        (∀ p ∈ acc.name_to_alias_list, ∀ a ∈ p.2, ¬ N a) →
        ∀ m, N m →
          dlookup ((l.foldl (fun acc a => VkEnum.apply_value f acc a v) acc)).name_to_value m
            = dlookup acc.name_to_value m := by
      intro l
      induction l with
      | nil => intro acc _ _ m _; rfl
      | cons a t iht =>
        intro acc hal hap m hm
        rw [List.foldl_cons]
        have hstep := ih acc a (hal a (List.mem_cons_self a t)) hap m hm
        have hnext : ∀ p ∈ (VkEnum.apply_value f acc a v).name_to_alias_list,
            ∀ a ∈ p.2, ¬ N a := by
          intro p hp
          exact hap p ((VkEnum.apply_pending_sublist f v acc a).subset hp)
        rw [iht (VkEnum.apply_value f acc a v)
          (fun a ha => hal a (List.mem_cons_of_mem _ ha)) hnext m hm, hstep]
    intro e n hn hp m hm
    have hmn : m ≠ n := fun hc => hn (hc ▸ hm)
    cases hl : dlookup e.name_to_alias_list n with
    | none =>
      rw [VkEnum.apply_value_succ_none f v hl, VkEnum.record_value_ntv_lookup, if_neg hmn]
    | some l =>
      have hEq := VkEnum.apply_value_succ_some f v hl
      have hntv : (VkEnum.apply_value (f + 1) e n v).name_to_value
          = ((l.foldl (fun acc a => VkEnum.apply_value f acc a v)
              (e.record_value n v))).name_to_value := by rw [hEq]
      rw [hntv]
      have hlmem : ∀ a ∈ l, ¬ N a := fun a ha => hp (n, l) (dlookup_mem hl) a ha
      have hrp : ∀ p ∈ (e.record_value n v).name_to_alias_list, ∀ a ∈ p.2, ¬ N a := by
        rw [VkEnum.record_value_pending]
        exact hp
      rw [aux l (e.record_value n v) hlmem hrp m hm, VkEnum.record_value_ntv_lookup,
        if_neg hmn]

/-- A pending alias resolved by a cascade (other than the root) had its whole
pending list flushed: the key it was waiting under is gone afterwards. -/
theorem VkEnum.apply_ins_flush (fuel : Nat) (v : Int) :
    ∀ (e : VkEnum) (n m : String), m ≠ n →
      dlookup e.name_to_value m = none →
      dlookup (VkEnum.apply_value fuel e n v).name_to_value m ≠ none →
      ∃ k lr, dlookup e.name_to_alias_list k = some lr ∧ m ∈ lr ∧
        dlookup (VkEnum.apply_value fuel e n v).name_to_alias_list k = none := by
  induction fuel with
  | zero => intro e n m _ h1 h2; exact absurd h1 h2
  | succ f ih =>
    have aux : ∀ (l : List String) (acc : VkEnum) (m : String), m ∉ l →
        dlookup acc.name_to_value m = none →
        dlookup ((l.foldl (fun acc a => VkEnum.apply_value f acc a v) acc)).name_to_value m
            ≠ none →
        ∃ k lr, dlookup acc.name_to_alias_list k = some lr ∧ m ∈ lr ∧
          dlookup ((l.foldl (fun acc a => VkEnum.apply_value f acc a v)
            acc)).name_to_alias_list k = none := by
      intro l
      induction l with
      | nil => intro acc m _ h1 h2; exact absurd h1 h2
      | cons a t iht =>
        intro acc m hml h1 h2
        rw [List.foldl_cons] at h2 ⊢
        by_cases hmid : dlookup (VkEnum.apply_value f acc a v).name_to_value m = none
        · obtain ⟨k, lr, hk, hmlr, hfin⟩ :=
            iht (VkEnum.apply_value f acc a v) m (fun hc => hml (List.mem_cons_of_mem _ hc))
              hmid h2
          rcases VkEnum.apply_pending_or_none f v acc a k with h3 | h3
          · exact ⟨k, lr, h3 ▸ hk, hmlr, hfin⟩
          · rw [h3] at hk
            exact absurd hk (Option.noConfusion)
        · have hma : m ≠ a := fun hc => hml (hc ▸ List.mem_cons_self a t)
          obtain ⟨k, lr, hk, hmlr, hmidp⟩ := ih acc a m hma h1 hmid
          exact ⟨k, lr, hk, hmlr, VkEnum.foldl_pending_none_pres f v t _ k hmidp⟩
    intro e n m hmn h1 h2
    cases hl : dlookup e.name_to_alias_list n with
    | none =>
      rw [VkEnum.apply_value_succ_none f v hl, VkEnum.record_value_ntv_lookup,
        if_neg hmn] at h2
      exact absurd h1 h2
    | some l =>
      have hEq := VkEnum.apply_value_succ_some f v hl
      have hntv : (VkEnum.apply_value (f + 1) e n v).name_to_value
          = ((l.foldl (fun acc a => VkEnum.apply_value f acc a v)
              (e.record_value n v))).name_to_value := by rw [hEq]
      have hpnd : (VkEnum.apply_value (f + 1) e n v).name_to_alias_list
          = dremove ((l.foldl (fun acc a => VkEnum.apply_value f acc a v)
              (e.record_value n v))).name_to_alias_list n := by rw [hEq]
      rw [hntv] at h2
      by_cases hml : m ∈ l
      · refine ⟨n, l, hl, hml, ?_⟩
        rw [hpnd, dlookup_dremove, if_pos rfl]
      · have hacc : dlookup (e.record_value n v).name_to_value m = none := by
          rw [VkEnum.record_value_ntv_lookup, if_neg hmn]
          exact h1
        obtain ⟨k, lr, hk, hmlr, hfin⟩ := aux l (e.record_value n v) m hml hacc h2
        rw [VkEnum.record_value_pending] at hk
        refine ⟨k, lr, hk, hmlr, ?_⟩
        rw [hpnd, dlookup_dremove]
        by_cases hk2 : k = n
        · rw [if_pos hk2]
        · rw [if_neg hk2]
          exact hfin

/-- Every name a cascade resolves ends up with no pending entry of its own. -/
theorem VkEnum.apply_key_clean (fuel : Nat) (v : Int) :
    ∀ (e : VkEnum) (n m : String),
      dlookup e.name_to_value m = none →
      dlookup (VkEnum.apply_value fuel e n v).name_to_value m ≠ none →
      dlookup (VkEnum.apply_value fuel e n v).name_to_alias_list m = none := by
  induction fuel with
  | zero => intro e n m h1 h2; exact absurd h1 h2
  | succ f ih =>
    have aux : ∀ (l : List String) (acc : VkEnum) (m : String),
        dlookup acc.name_to_value m = none →
        dlookup ((l.foldl (fun acc a => VkEnum.apply_value f acc a v) acc)).name_to_value m
            ≠ none →
        dlookup ((l.foldl (fun acc a => VkEnum.apply_value f acc a v)
          acc)).name_to_alias_list m = none := by
      intro l
      induction l with
      | nil => intro acc m h1 h2; exact absurd h1 h2
      | cons a t iht =>
        intro acc m h1 h2
        rw [List.foldl_cons] at h2 ⊢
        by_cases hmid : dlookup (VkEnum.apply_value f acc a v).name_to_value m = none
        · exact iht (VkEnum.apply_value f acc a v) m hmid h2
        · exact VkEnum.foldl_pending_none_pres f v t _ m (ih acc a m h1 hmid)
    intro e n m h1 h2
    cases hl : dlookup e.name_to_alias_list n with
    | none =>
      have hstate := VkEnum.apply_value_succ_none f v hl
      rw [hstate, VkEnum.record_value_ntv_lookup] at h2
      rw [hstate, VkEnum.record_value_pending]
      by_cases hm : m = n
      · rw [hm]
        exact hl
      · rw [if_neg hm] at h2
        exact absurd h1 h2
    | some l =>
      have hEq := VkEnum.apply_value_succ_some f v hl
      have hntv : (VkEnum.apply_value (f + 1) e n v).name_to_value
          = ((l.foldl (fun acc a => VkEnum.apply_value f acc a v)
              (e.record_value n v))).name_to_value := by rw [hEq]
      have hpnd : (VkEnum.apply_value (f + 1) e n v).name_to_alias_list
          = dremove ((l.foldl (fun acc a => VkEnum.apply_value f acc a v)
              (e.record_value n v))).name_to_alias_list n := by rw [hEq]
      rw [hpnd, dlookup_dremove]
      by_cases hm : m = n
      · rw [if_pos hm]
      · rw [if_neg hm]
        rw [hntv] at h2
        have hacc : dlookup (e.record_value n v).name_to_value m = none := by
          rw [VkEnum.record_value_ntv_lookup, if_neg hm]
          exact h1
        exact aux l (e.record_value n v) m hacc h2

/-- Every canonical-map update of a cascade happens at the cascade's value. -/
theorem VkEnum.apply_values_other (fuel : Nat) (v : Int) :
    ∀ (e : VkEnum) (n : String) (w : Int), w ≠ v →
      dlookup (VkEnum.apply_value fuel e n v).values w = dlookup e.values w := by
  induction fuel with
  | zero => intro e n w _; rfl
  | succ f ih =>
    have aux : ∀ (l : List String) (acc : VkEnum) (w : Int), w ≠ v →
        dlookup ((l.foldl (fun acc a => VkEnum.apply_value f acc a v) acc)).values w
          = dlookup acc.values w := by
      intro l
      induction l with
      | nil => intro acc w _; rfl
      | cons a t iht =>
        intro acc w hw
        rw [List.foldl_cons, iht _ w hw, ih acc a w hw]
    intro e n w hw
    cases hl : dlookup e.name_to_alias_list n with
    | none =>
      rw [VkEnum.apply_value_succ_none f v hl, VkEnum.record_value_values_other _ _ _ _ hw]
    | some l =>
      have hEq := VkEnum.apply_value_succ_some f v hl
      have hval : (VkEnum.apply_value (f + 1) e n v).values
          = ((l.foldl (fun acc a => VkEnum.apply_value f acc a v)
              (e.record_value n v))).values := by rw [hEq]
      rw [hval, aux l _ w hw, VkEnum.record_value_values_other _ _ _ _ hw]

theorem VkEnum.apply_values_ne_none (fuel : Nat) (v : Int) :
    ∀ (e : VkEnum) (n : String) (w : Int), dlookup e.values w ≠ none →
      dlookup (VkEnum.apply_value fuel e n v).values w ≠ none := by
  induction fuel with
  | zero => intro e n w h; exact h
  | succ f ih =>
    have aux : ∀ (l : List String) (acc : VkEnum) (w : Int), dlookup acc.values w ≠ none →
        dlookup ((l.foldl (fun acc a => VkEnum.apply_value f acc a v) acc)).values w
          ≠ none := by
      intro l
      induction l with
      | nil => intro acc w h; exact h
      | cons a t iht =>
        intro acc w h
        rw [List.foldl_cons]
        exact iht _ w (ih acc a w h)
    intro e n w h
    have hrv : ∀ w : Int, dlookup e.values w ≠ none →
        dlookup (e.record_value n v).values w ≠ none := by
      intro w hw
      by_cases hwv : w = v
      · subst hwv
        rw [VkEnum.record_value_values_at]
        exact Option.some_ne_none _
      · rw [VkEnum.record_value_values_other _ _ _ _ hwv]
        exact hw
    cases hl : dlookup e.name_to_alias_list n with
    | none =>
      rw [VkEnum.apply_value_succ_none f v hl]
      exact hrv w h
    | some l =>
      have hEq := VkEnum.apply_value_succ_some f v hl
      have hval : (VkEnum.apply_value (f + 1) e n v).values
          = ((l.foldl (fun acc a => VkEnum.apply_value f acc a v)
              (e.record_value n v))).values := by rw [hEq]
      rw [hval]
      exact aux l _ w (hrv w h)

/-- With fuel, the cascade's value gains (or keeps) a canonical name. -/
theorem VkEnum.apply_values_v (f : Nat) (e : VkEnum) (n : String) (v : Int) :
    dlookup (VkEnum.apply_value (f + 1) e n v).values v ≠ none := by
  have hrv : dlookup (e.record_value n v).values v ≠ none := by
    rw [VkEnum.record_value_values_at]
    exact Option.some_ne_none _
  have aux : ∀ (l : List String) (acc : VkEnum), dlookup acc.values v ≠ none →
      dlookup ((l.foldl (fun acc a => VkEnum.apply_value f acc a v) acc)).values v ≠ none := by
    intro l
    induction l with
    | nil => intro acc h; exact h
    | cons a t iht =>
      intro acc h
      rw [List.foldl_cons]
      exact iht _ (VkEnum.apply_values_ne_none f v acc a v h)
  cases hl : dlookup e.name_to_alias_list n with
  | none =>
    rw [VkEnum.apply_value_succ_none f v hl]
    exact hrv
  | some l =>
    have hEq := VkEnum.apply_value_succ_some f v hl
    have hval : (VkEnum.apply_value (f + 1) e n v).values
        = ((l.foldl (fun acc a => VkEnum.apply_value f acc a v)
            (e.record_value n v))).values := by rw [hEq]
    rw [hval]
    exact aux l _ hrv

/-- The one-step version of the minimal-length invariant at the cascade's
value: `record_value` keeps the canonical name at `v` no longer than every
name resolving to `v`. -/
theorem VkEnum.record_values_min (e : VkEnum) (n : String) (v : Int)
    (H : ∀ m, dlookup e.name_to_value m = some v →
      ∃ w, dlookup e.values v = some w ∧ w.length ≤ m.length) :
    ∀ m, dlookup (e.record_value n v).name_to_value m = some v →
      ∃ w, dlookup (e.record_value n v).values v = some w ∧ w.length ≤ m.length := by
  intro m hm
  rw [VkEnum.record_value_ntv_lookup] at hm
  rw [VkEnum.record_value_values_at]
  by_cases hmn : m = n
  · refine ⟨_, rfl, ?_⟩
    cases hold : dlookup e.values v with
    | none => simp [hmn]
    | some prior =>
      by_cases hp : prior.length > n.length
      · simp [hp, hmn]
      · simp only [hp, if_false]
        rw [hmn]
        exact Nat.le_of_not_lt hp
  · rw [if_neg hmn] at hm
    obtain ⟨w, hw, hwl⟩ := H m hm
    refine ⟨_, rfl, ?_⟩
    rw [hw]
    by_cases hp : w.length > n.length
    · simp only [hp, if_true]
      exact le_trans (Nat.le_of_lt hp) hwl
    · simp only [hp, if_false]
      exact hwl

/-- Cascade preservation of the minimal-length invariant at the cascade's
value: if the canonical name at `v` is minimal among names resolving to `v`,
it stays so after the cascade (every cascade write also carries `v`). -/
theorem VkEnum.apply_values_min (fuel : Nat) (v : Int) :
    ∀ (e : VkEnum) (n : String),
      (∀ m, dlookup e.name_to_value m = some v →
        ∃ w, dlookup e.values v = some w ∧ w.length ≤ m.length) →
      ∀ m, dlookup (VkEnum.apply_value fuel e n v).name_to_value m = some v →
        ∃ w, dlookup (VkEnum.apply_value fuel e n v).values v = some w ∧
          w.length ≤ m.length := by
  induction fuel with
  | zero => intro e n H; exact H
  | succ f ih =>
    have aux : ∀ (l : List String) (acc : VkEnum),
        (∀ m, dlookup acc.name_to_value m = some v →
          ∃ w, dlookup acc.values v = some w ∧ w.length ≤ m.length) →
        ∀ m, dlookup ((l.foldl (fun acc a => VkEnum.apply_value f acc a v)
            acc)).name_to_value m = some v →
          ∃ w, dlookup ((l.foldl (fun acc a => VkEnum.apply_value f acc a v)
            acc)).values v = some w ∧ w.length ≤ m.length := by
      intro l
      induction l with
      | nil => intro acc H; exact H
      | cons a t iht =>
        intro acc H
        rw [List.foldl_cons]
        exact iht _ (ih acc a H)
    intro e n H
    cases hl : dlookup e.name_to_alias_list n with
    | none =>
      rw [VkEnum.apply_value_succ_none f v hl]
      exact VkEnum.record_values_min e n v H
    | some l =>
      have hEq := VkEnum.apply_value_succ_some f v hl
      have hval : (VkEnum.apply_value (f + 1) e n v).values
          = ((l.foldl (fun acc a => VkEnum.apply_value f acc a v)
              (e.record_value n v))).values := by rw [hEq]
      have hntv : (VkEnum.apply_value (f + 1) e n v).name_to_value
          = ((l.foldl (fun acc a => VkEnum.apply_value f acc a v)
              (e.record_value n v))).name_to_value := by rw [hEq]
      rw [hval, hntv]
      exact aux l _ (VkEnum.record_values_min e n v H)

/-- Cascade preservation of "the canonical name at `v` resolves to `v`". -/
theorem VkEnum.apply_canon_v (fuel : Nat) (v : Int) :
    ∀ (e : VkEnum) (n : String),
      (∀ w, dlookup e.values v = some w → dlookup e.name_to_value w = some v) →
      ∀ w, dlookup (VkEnum.apply_value fuel e n v).values v = some w →
        dlookup (VkEnum.apply_value fuel e n v).name_to_value w = some v := by
  induction fuel with
  | zero => intro e n H; exact H
  | succ f ih =>
    have hrv : ∀ (e : VkEnum) (n : String),
        (∀ w, dlookup e.values v = some w → dlookup e.name_to_value w = some v) →
        ∀ w, dlookup (e.record_value n v).values v = some w →
          dlookup (e.record_value n v).name_to_value w = some v := by
      intro e n H w hw
      rw [VkEnum.record_value_values_at] at hw
      rw [VkEnum.record_value_ntv_lookup]
      cases hold : dlookup e.values v with
      | none =>
        rw [hold] at hw
        simp only [Option.some.injEq] at hw
        rw [if_pos hw.symm]
      | some prior =>
        rw [hold] at hw
        by_cases hp : prior.length > n.length
        · simp only [hp, if_true, Option.some.injEq] at hw
          rw [if_pos hw.symm]
        · simp only [hp, if_false, Option.some.injEq] at hw
          by_cases hwn : w = n
          · rw [if_pos hwn]
          · rw [if_neg hwn]
            exact H w (hw ▸ hold)
    have aux : ∀ (l : List String) (acc : VkEnum),
        (∀ w, dlookup acc.values v = some w → dlookup acc.name_to_value w = some v) →
        ∀ w, dlookup ((l.foldl (fun acc a => VkEnum.apply_value f acc a v)
            acc)).values v = some w →
          dlookup ((l.foldl (fun acc a => VkEnum.apply_value f acc a v)
            acc)).name_to_value w = some v := by
      intro l
      induction l with
      | nil => intro acc H; exact H
      | cons a t iht =>
        intro acc H
        rw [List.foldl_cons]
        exact iht _ (ih acc a H)
    intro e n H
    cases hl : dlookup e.name_to_alias_list n with
    | none =>
      rw [VkEnum.apply_value_succ_none f v hl]
      exact hrv e n H
    | some l =>
      have hEq := VkEnum.apply_value_succ_some f v hl
      have hval : (VkEnum.apply_value (f + 1) e n v).values
          = ((l.foldl (fun acc a => VkEnum.apply_value f acc a v)
              (e.record_value n v))).values := by rw [hEq]
      have hntv : (VkEnum.apply_value (f + 1) e n v).name_to_value
          = ((l.foldl (fun acc a => VkEnum.apply_value f acc a v)
              (e.record_value n v))).name_to_value := by rw [hEq]
      rw [hval, hntv]
      exact aux l _ (hrv e n H)

/-! ### C3: the extension-offset formula -/

/-- C3: a constant declared with an extension-relative offset resolves to
`1000000000 + (extnum − 1) * 1000 + offset`, negated when the error flag is
set; in particular extension number 5 with offset 3 yields `1000004003`, and
`−1000004003` when negated. -/
theorem C3_extension_offset_formula :
    (∀ (f : Nat) (e : VkEnum) (n : String) (extnum offset : Int) (err : Bool),
      dlookup (VkEnum.add_value (f + 1) e n
          (ConstantSource.extensionOffset extnum offset err)).name_to_value n
        = some (if err then -(1000000000 + (extnum - 1) * 1000 + offset)
                else 1000000000 + (extnum - 1) * 1000 + offset)) ∧
    dlookup (VkEnum.add_value 1 (VkEnum.mk0 "VkExample" 32) "VK_EXAMPLE_X"
        (ConstantSource.extensionOffset 5 3 false)).name_to_value "VK_EXAMPLE_X"
      = some 1000004003 ∧
    dlookup (VkEnum.add_value 1 (VkEnum.mk0 "VkExample" 32) "VK_EXAMPLE_X"
        (ConstantSource.extensionOffset 5 3 true)).name_to_value "VK_EXAMPLE_X"
      = some (-1000004003) := by
  refine ⟨?_, by decide, by decide⟩
  intro f e n extnum offset err
  show dlookup (VkEnum.apply_value (f + 1) e n
      (if err then -(1000000000 + (extnum - 1) * 1000 + offset)
       else 1000000000 + (extnum - 1) * 1000 + offset)).name_to_value n = _
  exact VkEnum.apply_ntv_self f e n _

/-! ### C5: sentinel ("max enum") name derivation -/

/-- Modelled from the spec's words (claim C5): upper-snake-case conversion
that inserts an underscore before each capital letter not itself preceded by
a capital, the predecessor being the previous character of the identifier
itself; the first character receives no underscore (per the claim's own
examples).  `p` is the character preceding `c`. -/
def spec_snake_walk : Char → List Char → List Char
  | _, [] => []
  | p, c :: rest =>
    if c.isUpper && !p.isUpper then '_' :: c :: spec_snake_walk c rest
    else c :: spec_snake_walk c rest

/-- Modelled from the spec: whole-identifier upper-snake-case conversion. -/
def spec_upper_snake (s : String) : List Char :=
  match s.toList with
  | [] => []
  | c :: rest => (c :: spec_snake_walk c rest).map Char.toUpper

/-- Modelled from the spec (claim C5): the claimed sentinel derivation — the
described upper-snake conversion followed by the vendor-tag rule. -/
def spec_max_enum_name (s : String) : String :=
  let m := spec_upper_snake s
  let parts := splitUnderscore m
  let last_tag := parts.getLastD []
  if String.mk last_tag ∈ special_tags then
    String.mk (joinUnderscore parts.dropLast ++ ('_' :: "MAX_ENUM_".toList) ++ last_tag)
  else
    String.mk (m ++ ('_' :: "MAX_ENUM".toList))

/-- C5 counterexample: on `"ABc"` the code inserts an underscore before the
second-position capital `B` even though `B` is preceded by the capital `A`
(the regex runs on `s[1:]`, so `B` has no predecessor there), while the
claimed conversion preserves the acronym run `AB`. -/
theorem C5_counterexample :
    compute_max_enum_name "ABc" = "A_BC_MAX_ENUM" ∧
    spec_max_enum_name "ABc" = "ABC_MAX_ENUM" ∧
    compute_max_enum_name "ABc" ≠ spec_max_enum_name "ABc" := by
  refine ⟨by decide, by decide, ?_⟩
  decide

/-- Amended (claim C5): as the claim, except that the conversion runs on the
identifier without its first character, so a capital in second position is
always treated as not preceded by a capital.  `prevCap` says whether the
previous character (within `s[1:]`) was a capital; it starts out `false`. -/
def amended_snake_walk : Bool → List Char → List Char
  | _, [] => []
  | prevCap, c :: rest =>
    if c.isUpper && !prevCap then '_' :: c :: amended_snake_walk true rest
    else c :: amended_snake_walk c.isUpper rest

/-- Amended (claim C5): upper-snake conversion skipping the first character
and starting with "no capital seen". -/
def amended_upper_snake (s : String) : List Char :=
  match s.toList with
  | [] => []
  | c :: rest => (c :: amended_snake_walk false rest).map Char.toUpper

/-- Amended (claim C5): sentinel derivation with the corrected conversion. -/
def amended_max_enum_name (s : String) : String :=
  let m := amended_upper_snake s
  let parts := splitUnderscore m
  let last_tag := parts.getLastD []
  if String.mk last_tag ∈ special_tags then
    String.mk (joinUnderscore parts.dropLast ++ ('_' :: "MAX_ENUM_".toList) ++ last_tag)
  else
    String.mk (m ++ ('_' :: "MAX_ENUM".toList))

/-- The capital-ness of the character preceding the current position of the
regex walk (`none` at the start of `s[1:]`). -/
def prevCapOf : Option Char → Bool
  | none => false
  | some c => c.isUpper

theorem SHOUT_cond (p : Option Char) :
    (match p with | some q => !q.isUpper | none => true) = !prevCapOf p := by
  cases p <;> rfl

theorem SHOUT_step_eq_amended (l : List Char) :
    ∀ p : Option Char, SHOUT_step p l = amended_snake_walk (prevCapOf p) l := by
  induction l with
  | nil => intro p; cases p <;> rfl
  | cons c rest ih =>
    intro p
    show (if c.isUpper && (match p with | some q => !q.isUpper | none => true) then
        '_' :: c :: SHOUT_step (some c) rest else c :: SHOUT_step (some c) rest)
      = (if c.isUpper && !prevCapOf p then
          '_' :: c :: amended_snake_walk true rest
        else c :: amended_snake_walk c.isUpper rest)
    rw [SHOUT_cond p]
    by_cases hc : (c.isUpper && !prevCapOf p) = true
    · rw [if_pos hc, if_pos hc, ih (some c)]
      have hup : c.isUpper = true := (Bool.and_eq_true_iff.mp hc).1
      show '_' :: c :: amended_snake_walk (prevCapOf (some c)) rest = _
      rw [show prevCapOf (some c) = c.isUpper from rfl, hup]
    · rw [if_neg hc, if_neg hc, ih (some c)]
      rfl

/-- C5 (amended): for every identifier, the code's sentinel equals the
claim's derivation with the second-position exception; the claim's two
examples hold as stated. -/
theorem C5_sentinel_amended :
    (∀ s : String, compute_max_enum_name s = amended_max_enum_name s) ∧
    compute_max_enum_name "VkResult" = "VK_RESULT_MAX_ENUM" ∧
    compute_max_enum_name "VkDebugReportObjectTypeEXT"
      = "VK_DEBUG_REPORT_OBJECT_TYPE_MAX_ENUM_EXT" := by
  refine ⟨?_, by decide, by decide⟩
  intro s
  have hsh : shoutChars s.toList = amended_upper_snake s := by
    unfold shoutChars amended_upper_snake
    cases s.toList with
    | nil => rfl
    | cons c rest =>
      show List.map Char.toUpper (c :: SHOUT_step none rest)
        = List.map Char.toUpper (c :: amended_snake_walk false rest)
      rw [SHOUT_step_eq_amended rest none]
      rfl
  unfold compute_max_enum_name amended_max_enum_name
  rw [hsh]

/-! ### C1: canonical-name selection -/

/-- Declarations carrying immediate values (`value=` / `bitpos=`), as fed to
`add_value` by the XML walk. -/
def lit_ops (l : List (String × Int)) : List (String × ConstantSource) :=
  l.map (fun p => (p.1, ConstantSource.literal p.2))

/-- A fresh enumeration after a sequence of immediate-value declarations. -/
def run_lit (nm : String) (bw : Nat) (ops : List (String × Int)) : VkEnum :=
  VkEnum.run_ops (VkEnum.mk0 nm bw) (lit_ops ops)

/-- The names declared with value `v`, in registration order. -/
def collides (ops : List (String × Int)) (v : Int) : List String :=
  (ops.filter (fun p => decide (p.2 = v))).map Prod.fst

/-- What the claim says the canonical map holds at a value: nothing when no
name was declared with it; otherwise a name that occurs among the colliding
names, is no longer than any of them, and is strictly shorter than every name
registered before its own (first) occurrence — i.e. the shortest, ties broken
towards the earliest registration. -/
def canonical_spec (names : List String) : Option String → Prop
  | none => names = []
  | some c =>
    ∃ pre post, names = pre ++ c :: post ∧ (∀ m ∈ names, c.length ≤ m.length) ∧
      ∀ m ∈ pre, c.length < m.length

theorem run_lit_append (nm : String) (bw : Nat) (ops : List (String × Int)) (n : String)
    (w : Int) :
    run_lit nm bw (ops ++ [(n, w)])
      = VkEnum.add_value (pending_count (run_lit nm bw ops) + 1) (run_lit nm bw ops) n
          (ConstantSource.literal w) := by
  unfold run_lit lit_ops VkEnum.run_ops
  rw [List.map_append, List.foldl_append]
  rfl

theorem run_lit_step (nm : String) (bw : Nat) (ops : List (String × Int)) (n : String)
    (w : Int) (hp : (run_lit nm bw ops).name_to_alias_list = []) :
    run_lit nm bw (ops ++ [(n, w)]) = (run_lit nm bw ops).record_value n w := by
  rw [run_lit_append]
  show VkEnum.apply_value (pending_count (run_lit nm bw ops) + 1) _ n w = _
  exact VkEnum.apply_value_succ_none _ w (by rw [hp]; rfl)

theorem run_lit_pending (nm : String) (bw : Nat) (ops : List (String × Int)) :
    (run_lit nm bw ops).name_to_alias_list = [] := by
  induction ops using List.reverseRecOn with
  | nil => rfl
  | append_singleton ops p ih =>
    obtain ⟨n, w⟩ := p
    rw [run_lit_step nm bw ops n w ih, VkEnum.record_value_pending, ih]

theorem collides_append (ops : List (String × Int)) (n : String) (w v : Int) :
    collides (ops ++ [(n, w)]) v = collides ops v ++ (if w = v then [n] else []) := by
  unfold collides
  rw [List.filter_append, List.map_append]
  congr 1
  by_cases hw : w = v
  · simp [hw]
  · simp [hw]

/-- C1: after any sequence of immediate-value declarations (hence after every
prefix of one — the selection is re-evaluated at each step), the canonical
map at each value holds the shortest colliding name, ties broken in favour of
the earliest-registered one. -/
theorem C1_canonical_shortest_earliest (nm : String) (bw : Nat)
    (ops : List (String × Int)) (v : Int) :
    canonical_spec (collides ops v) (dlookup (run_lit nm bw ops).values v) := by
  induction ops using List.reverseRecOn with
  | nil => rfl
  | append_singleton ops p ih =>
    obtain ⟨n, w⟩ := p
    rw [run_lit_step nm bw ops n w (run_lit_pending nm bw ops), collides_append]
    by_cases hw : w = v
    · subst hw
      rw [if_pos rfl, VkEnum.record_value_values_at]
      cases hold : dlookup (run_lit nm bw ops).values w with
      | none =>
        rw [hold] at ih
        have hnil : collides ops w = [] := ih
        rw [hnil]
        dsimp only
        refine ⟨[], [], rfl, ?_, ?_⟩
        · intro m hm
          rw [List.mem_singleton.mp hm]
        · intro m hm
          exact absurd hm (List.not_mem_nil m)
      | some c =>
        rw [hold] at ih
        obtain ⟨pre, post, heq, hmin, hpre⟩ := ih
        dsimp only
        by_cases hlen : c.length > n.length
        · rw [if_pos hlen]
          refine ⟨collides ops w, [], rfl, ?_, ?_⟩
          · intro m hm
            rcases List.mem_append.mp hm with h | h
            · exact le_trans (Nat.le_of_lt hlen) (hmin m h)
            · rw [List.mem_singleton.mp h]
          · intro m hm
            exact lt_of_lt_of_le hlen (hmin m hm)
        · rw [if_neg hlen]
          refine ⟨pre, post ++ [n], ?_, ?_, hpre⟩
          · rw [heq, List.append_assoc]
            rfl
          · intro m hm
            rcases List.mem_append.mp hm with h | h
            · exact hmin m h
            · rw [List.mem_singleton.mp h]
              exact Nat.le_of_not_lt hlen
    · rw [if_neg hw, List.append_nil,
        VkEnum.record_value_values_other _ _ _ _ (fun hc => hw hc.symm)]
      exact ih

/-! ### C6: deterministic, lexicographic emission order -/

theorem insertByName_perm {α : Type} (key : α → String) (x : α) (l : List α) :
    (insertByName key x l).Perm (x :: l) := by
  induction l with
  | nil => exact List.Perm.refl _
  | cons y t ih =>
    unfold insertByName
    by_cases h : key x ≤ key y
    · rw [if_pos h]
    · rw [if_neg h]
      exact (ih.cons y).trans (List.Perm.swap x y t)

theorem sortByName_perm {α : Type} (key : α → String) (l : List α) :
    (sortByName key l).Perm l := by
  induction l with
  | nil => exact List.Perm.refl _
  | cons x t ih =>
    exact (insertByName_perm key x (sortByName key t)).trans (ih.cons x)

theorem insertByName_sorted {α : Type} (key : α → String) (x : α) (l : List α)
    (hs : List.Pairwise (fun a b => key a ≤ key b) l) :
    List.Pairwise (fun a b => key a ≤ key b) (insertByName key x l) := by
  induction l with
  | nil => simp [insertByName]
  | cons y t ih =>
    unfold insertByName
    obtain ⟨hy, ht⟩ := List.pairwise_cons.mp hs
    by_cases h : key x ≤ key y
    · rw [if_pos h]
      refine List.Pairwise.cons ?_ hs
      intro b hb
      rcases List.mem_cons.mp hb with hbe | hbt
      · rw [hbe]
        exact h
      · exact le_trans h (hy b hbt)
    · rw [if_neg h]
      have hyx : key y ≤ key x := le_of_not_le h
      refine List.Pairwise.cons ?_ (ih ht)
      intro b hb
      have hb' : b ∈ x :: t := (insertByName_perm key x t).mem_iff.mp hb
      rcases List.mem_cons.mp hb' with hbe | hbt
      · rw [hbe]
        exact hyx
      · exact hy b hbt

theorem sortByName_sorted {α : Type} (key : α → String) (l : List α) :
    List.Pairwise (fun a b => key a ≤ key b) (sortByName key l) := by
  induction l with
  | nil => exact List.Pairwise.nil
  | cons x t ih => exact insertByName_sorted key x (sortByName key t) ih

/-- Two name-sorted lists of entities with pairwise-distinct names that hold
the same entities are equal. -/
theorem sorted_perm_nodup_eq {α : Type} (key : α → String) :
    ∀ (l₁ l₂ : List α), l₁.Perm l₂ →
      List.Pairwise (fun a b => key a ≤ key b) l₁ →
      List.Pairwise (fun a b => key a ≤ key b) l₂ →
      (l₁.map key).Nodup → l₁ = l₂ := by
  intro l₁
  induction l₁ with
  | nil =>
    intro l₂ hp _ _ _
    exact (List.Perm.eq_nil hp.symm).symm
  | cons x t ih =>
    intro l₂ hp hs₁ hs₂ hnd
    cases l₂ with
    | nil => exact absurd (List.Perm.eq_nil hp) (by simp)
    | cons y t₂ =>
      have hnd' : key x ∉ t.map key ∧ (t.map key).Nodup := by
        rw [List.map_cons] at hnd
        exact List.nodup_cons.mp hnd
      have hxy : x = y := by
        have hx2 : x ∈ y :: t₂ := hp.mem_iff.mp (List.mem_cons_self x t)
        rcases List.mem_cons.mp hx2 with h | hxt₂
        · exact h
        · have hyx : key y ≤ key x := (List.pairwise_cons.mp hs₂).1 x hxt₂
          have hy1 : y ∈ x :: t := hp.mem_iff.mpr (List.mem_cons_self y t₂)
          rcases List.mem_cons.mp hy1 with h' | hyt
          · exact h'.symm
          · have hxy' : key x ≤ key y := (List.pairwise_cons.mp hs₁).1 y hyt
            have hkeq : key x = key y := le_antisymm hxy' hyx
            have hin : key y ∈ t.map key := List.mem_map_of_mem key hyt
            rw [← hkeq] at hin
            exact absurd hin hnd'.1
      subst hxy
      have ht : t.Perm t₂ := hp.cons_inv
      rw [ih t₂ ht (List.pairwise_cons.mp hs₁).2 (List.pairwise_cons.mp hs₂).2 hnd'.2]

/-- C6: the emission order `main` feeds the templates (each registry sorted
by entity name) is lexicographically sorted, loses no entity, and depends
only on which entities were parsed — not on the order the registry walk
produced them — so byte-identical input yields byte-identical artifacts. -/
theorem C6_deterministic_emission {α : Type} (key : α → String) (l₁ l₂ : List α)
    (hperm : l₁.Perm l₂) (hnd : (l₁.map key).Nodup) :
    sortByName key l₁ = sortByName key l₂ ∧
    List.Pairwise (fun a b => key a ≤ key b) (sortByName key l₁) ∧
    (sortByName key l₁).Perm l₁ := by
  refine ⟨?_, sortByName_sorted key l₁, sortByName_perm key l₁⟩
  refine sorted_perm_nodup_eq key _ _ ?_ (sortByName_sorted key l₁) (sortByName_sorted key l₂) ?_
  · exact ((sortByName_perm key l₁).trans hperm).trans (sortByName_perm key l₂).symm
  · exact (List.Perm.nodup_iff ((sortByName_perm key l₁).map key)).mpr hnd

theorem C6_deterministic_emission_witness :
    sortByName (fun s : String => s) ["VkResult", "VkFormat"]
      = sortByName (fun s : String => s) ["VkFormat", "VkResult"] ∧
    List.Pairwise (fun a b : String => a ≤ b)
      (sortByName (fun s : String => s) ["VkResult", "VkFormat"]) ∧
    (sortByName (fun s : String => s) ["VkResult", "VkFormat"]).Perm
      ["VkResult", "VkFormat"] :=
  C6_deterministic_emission (fun s : String => s) ["VkResult", "VkFormat"]
    ["VkFormat", "VkResult"] (List.Perm.swap "VkFormat" "VkResult" []) (by decide)

/-! ### C7: output discipline under fatal conditions -/

/-- A registry whose only bitmask enumeration carries a name that fails the
`all_bits_name` assertions (no `FlagBits` suffix): rendering the constants
artifact raises, but only after the first two artifacts are fully written. -/
def gi_bad_bitmask : GenInput :=
  { enums := [], extensions := [], structs := [],
    bitmasks := [VkEnum.mk0 "VkFoo" 32], object_types := [] }

/-- C7 counterexample: on `gi_bad_bitmask` the run aborts with a non-zero
status, yet output was written — the string-conversion source and header are
complete on disk and the constants header exists truncated to empty, so the
advertised all-or-nothing discipline fails. -/
theorem C7_counterexample :
    (main_model (Except.ok gi_bad_bitmask)).exitOk = false ∧
    (main_model (Except.ok gi_bad_bitmask)).written
      = [("vk_enum_to_str.c", render_c gi_bad_bitmask),
         ("vk_enum_to_str.h", render_h gi_bad_bitmask),
         ("vk_enum_defines.h", "")] ∧
    (main_model (Except.ok gi_bad_bitmask)).written ≠ [] := by
  refine ⟨rfl, rfl, ?_⟩
  intro h
  exact List.noConfusion h

/-- C7 (amended): a parse-time fatal condition aborts before any artifact is
opened, leaving no output; the only render-fallible artifact is the constants
header, and a fatal condition while rendering it aborts with non-zero status
*after* `vk_enum_to_str.c` and `vk_enum_to_str.h` have been fully written,
leaving `vk_enum_defines.h` created but empty. -/
theorem C7_output_discipline_amended :
    (∀ msg : String, main_model (Except.error msg) = ⟨[], false⟩) ∧
    (∀ (gi : GenInput) (d : String), render_defines gi = Except.ok d →
      main_model (Except.ok gi)
        = ⟨[("vk_enum_to_str.c", render_c gi), ("vk_enum_to_str.h", render_h gi),
            ("vk_enum_defines.h", d)], true⟩) ∧
    (∀ (gi : GenInput) (msg : String), render_defines gi = Except.error msg →
      main_model (Except.ok gi)
        = ⟨[("vk_enum_to_str.c", render_c gi), ("vk_enum_to_str.h", render_h gi),
            ("vk_enum_defines.h", "")], false⟩) := by
  refine ⟨fun _ => rfl, ?_, ?_⟩
  · intro gi d h
    show write_loop (render_list gi) = _
    unfold render_list write_loop
    rw [h]
    rfl
  · intro gi msg h
    show write_loop (render_list gi) = _
    unfold render_list write_loop
    rw [h]
    rfl

theorem C7_output_discipline_witness :
    main_model (Except.error "malformed document") = ⟨[], false⟩ ∧
    main_model (Except.ok gi_bad_bitmask)
      = ⟨[("vk_enum_to_str.c", render_c gi_bad_bitmask),
          ("vk_enum_to_str.h", render_h gi_bad_bitmask),
          ("vk_enum_defines.h", "")], false⟩ :=
  ⟨C7_output_discipline_amended.1 "malformed document",
   C7_output_discipline_amended.2.2 gi_bad_bitmask "AssertionError in all_bits_name"
     (by rfl)⟩

/-! ### C8: handle-discriminant resolution -/

theorem parse_handles_acc_mono (vo : VkEnum) :
    ∀ (hs : List (String × String)) (acc t : List (Int × String)),
      parse_handles vo hs acc = Except.ok t →
      ∀ k, dlookup acc k ≠ none → dlookup t k ≠ none := by
  intro hs
  induction hs with
  | nil =>
    intro acc t h k hk
    cases h
    exact hk
  | cons p rest ih =>
    intro acc t h k hk
    obtain ⟨en, d⟩ := p
    unfold parse_handles at h
    cases hv : dlookup vo.name_to_value en with
    | none => rw [hv] at h; exact Except.noConfusion h
    | some v =>
      rw [hv] at h
      refine ih _ t h k ?_
      rw [dlookup_dinsert]
      by_cases hkv : k = v
      · rw [if_pos hkv]
        exact Option.some_ne_none d
      · rw [if_neg hkv]
        exact hk

/-- C8: a handle whose designated discriminant name is absent from the
designated enumeration's name-to-value map makes generation fail fatally
(the `KeyError` propagates); when every handle resolves, each resolved value
is recorded in the object-type table. -/
theorem C8_handle_discriminant_resolution (vo : VkEnum) (handles : List (String × String)) :
    ((∃ p ∈ handles, dlookup vo.name_to_value p.1 = none) →
      ∃ msg, parse_handles vo handles [] = Except.error msg) ∧
    (∀ t, parse_handles vo handles [] = Except.ok t →
      ∀ p ∈ handles, ∃ v, dlookup vo.name_to_value p.1 = some v ∧ dlookup t v ≠ none) := by
  have mem_part : ∀ (hs : List (String × String)) (acc t : List (Int × String)),
      parse_handles vo hs acc = Except.ok t →
      ∀ p ∈ hs, ∃ v, dlookup vo.name_to_value p.1 = some v ∧ dlookup t v ≠ none := by
    intro hs
    induction hs with
    | nil => intro acc t _ p hp; exact absurd hp (List.not_mem_nil p)
    | cons q rest ih =>
      intro acc t h p hp
      obtain ⟨en, d⟩ := q
      unfold parse_handles at h
      cases hv : dlookup vo.name_to_value en with
      | none => rw [hv] at h; exact Except.noConfusion h
      | some v =>
        rw [hv] at h
        rcases List.mem_cons.mp hp with hpe | hpr
        · subst hpe
          refine ⟨v, hv, ?_⟩
          refine parse_handles_acc_mono vo rest _ t h v ?_
          rw [dlookup_dinsert, if_pos rfl]
          exact Option.some_ne_none d
        · exact ih _ t h p hpr
  constructor
  · intro hex
    cases hres : parse_handles vo handles [] with
    | error msg => exact ⟨msg, rfl⟩
    | ok t =>
      obtain ⟨p, hp, hnone⟩ := hex
      obtain ⟨v, hv, _⟩ := mem_part handles [] t hres p hp
      rw [hnone] at hv
      exact Option.noConfusion hv
  · intro t h p hp
    exact mem_part handles [] t h p hp

theorem C8_handle_discriminant_witness :
    (∃ msg, parse_handles
        { name := "VkObjectType", bitwidth := 32, guard := none, values := [],
          name_to_value := [("VK_OBJECT_TYPE_BUFFER", 9)], name_to_alias_list := [] }
        [("VK_OBJECT_TYPE_SURFACE_KHR", "VkSurfaceKHR")] [] = Except.error msg) ∧
    (∀ p ∈ [("VK_OBJECT_TYPE_BUFFER", "VkBuffer")],
      ∃ v, dlookup [("VK_OBJECT_TYPE_BUFFER", (9 : Int))] p.1 = some v ∧
        dlookup [((9 : Int), "VkBuffer")] v ≠ none) := by
  constructor
  · exact (C8_handle_discriminant_resolution
      { name := "VkObjectType", bitwidth := 32, guard := none, values := [],
        name_to_value := [("VK_OBJECT_TYPE_BUFFER", 9)], name_to_alias_list := [] }
      [("VK_OBJECT_TYPE_SURFACE_KHR", "VkSurfaceKHR")]).1
      ⟨("VK_OBJECT_TYPE_SURFACE_KHR", "VkSurfaceKHR"), by decide, by decide⟩
  · intro p hp
    exact (C8_handle_discriminant_resolution
      { name := "VkObjectType", bitwidth := 32, guard := none, values := [],
        name_to_value := [("VK_OBJECT_TYPE_BUFFER", 9)], name_to_alias_list := [] }
      [("VK_OBJECT_TYPE_BUFFER", "VkBuffer")]).2
      [((9 : Int), "VkBuffer")] (by rfl) p hp

/-! ### Further association-list helpers for the resolution invariant -/

theorem dinsert_mem {α : Type} [DecidableEq α] {β : Type} {m : List (α × β)} {k : α} {v : β}
    {p : α × β} (h : p ∈ dinsert m k v) : p ∈ m ∨ p = (k, v) := by
  induction m with
  | nil => simpa [dinsert] using h
  | cons q t ih =>
    obtain ⟨a, b⟩ := q
    by_cases hak : a = k
    · rw [dinsert, if_pos hak] at h
      rcases List.mem_cons.mp h with he | ht
      · exact Or.inr he
      · exact Or.inl (List.mem_cons_of_mem _ ht)
    · rw [dinsert, if_neg hak] at h
      rcases List.mem_cons.mp h with he | ht
      · exact Or.inl (he ▸ List.mem_cons_self _ _)
      · rcases ih ht with h1 | h1
        · exact Or.inl (List.mem_cons_of_mem _ h1)
        · exact Or.inr h1

theorem dinsert_of_none {α : Type} [DecidableEq α] {β : Type} {m : List (α × β)} {k : α}
    (v : β) (h : dlookup m k = none) : dinsert m k v = m ++ [(k, v)] := by
  induction m with
  | nil => rfl
  | cons q t ih =>
    obtain ⟨a, b⟩ := q
    rw [dlookup] at h
    by_cases hka : k = a
    · rw [if_pos hka] at h
      exact Option.noConfusion h
    · rw [if_neg hka] at h
      rw [dinsert, if_neg (fun hc => hka hc.symm), ih h]
      rfl

theorem dinsert_decomp {α : Type} [DecidableEq α] {β : Type} {m : List (α × β)} {k : α}
    {old : β} (h : dlookup m k = some old) (v : β) :
    ∃ m₁ m₂, m = m₁ ++ (k, old) :: m₂ ∧ dinsert m k v = m₁ ++ (k, v) :: m₂ := by
  induction m with
  | nil => exact absurd h (by rw [dlookup]; exact Option.noConfusion)
  | cons q t ih =>
    obtain ⟨a, b⟩ := q
    rw [dlookup] at h
    by_cases hka : k = a
    · rw [if_pos hka] at h
      refine ⟨[], t, ?_, ?_⟩
      · rw [List.nil_append, ← hka, Option.some.inj h]
      · rw [dinsert, if_pos hka.symm, List.nil_append]
    · rw [if_neg hka] at h
      obtain ⟨m₁, m₂, hm, hins⟩ := ih h
      refine ⟨(a, b) :: m₁, m₂, by rw [hm]; rfl, ?_⟩
      rw [dinsert, if_neg (fun hc => hka hc.symm), hins]
      rfl

theorem nodup_keys_unique {α : Type} {β : Type} {l : List (α × β)} {n : α} {s₁ s₂ : β}
    (hnd : (l.map Prod.fst).Nodup) (h₁ : (n, s₁) ∈ l) (h₂ : (n, s₂) ∈ l) : s₁ = s₂ := by
  induction l with
  | nil => exact absurd h₁ (List.not_mem_nil _)
  | cons q t ih =>
    rw [List.map_cons] at hnd
    have hnd' := List.nodup_cons.mp hnd
    have key_mem : ∀ (s : β), (n, s) ∈ t → n ∈ t.map Prod.fst := by
      intro s hs
      exact List.mem_map_of_mem Prod.fst hs
    rcases List.mem_cons.mp h₁ with he₁ | ht₁ <;> rcases List.mem_cons.mp h₂ with he₂ | ht₂
    · exact congrArg Prod.snd (he₁.trans he₂.symm)
    · exfalso
      apply hnd'.1
      rw [← he₁]
      exact key_mem s₂ ht₂
    · exfalso
      apply hnd'.1
      rw [← he₂]
      exact key_mem s₁ ht₁
    · exact ih hnd'.2 ht₁ ht₂

theorem flat_mem {m : List (String × List String)} {p : String × List String} {a : String}
    (hp : p ∈ m) (ha : a ∈ p.2) : a ∈ m.flatMap (fun q => q.2) :=
  List.mem_flatMap.mpr ⟨p, hp, ha⟩

theorem flat_unique {m : List (String × List String)} {p q : String × List String}
    {a : String} (hnd : (m.flatMap (fun q => q.2)).Nodup) (hp : p ∈ m) (hq : q ∈ m)
    (hap : a ∈ p.2) (haq : a ∈ q.2) : p = q := by
  induction m with
  | nil => exact absurd hp (List.not_mem_nil _)
  | cons r t ih =>
    rw [List.flatMap_cons] at hnd
    have hdisj := List.disjoint_of_nodup_append hnd
    rcases List.mem_cons.mp hp with hpe | hpt <;> rcases List.mem_cons.mp hq with hqe | hqt
    · rw [hpe, hqe]
    · exfalso
      exact hdisj (hpe ▸ hap) (flat_mem hqt haq)
    · exfalso
      exact hdisj (hqe ▸ haq) (flat_mem hpt hap)
    · exact ih ((List.nodup_append.mp hnd).2.1) hpt hqt

theorem mem_dlookup_ne_none {α : Type} [DecidableEq α] {β : Type} {m : List (α × β)}
    {p : α × β} (hp : p ∈ m) : dlookup m p.1 ≠ none := by
  rw [dlookup_ne_none_iff]
  exact List.mem_map_of_mem Prod.fst hp

/-- Appending a globally fresh dependent to one pending list keeps the flat
dependent list duplicate-free. -/
theorem pending_flat_insert_nodup (m : List (String × List String)) (k x : String)
    (hnd : (m.flatMap (fun p => p.2)).Nodup) (hx : x ∉ m.flatMap (fun p => p.2)) :
    ((dinsert m k ((dlookup m k).getD [] ++ [x])).flatMap (fun p => p.2)).Nodup := by
  cases h : dlookup m k with
  | none =>
    simp only [Option.getD_none, List.nil_append]
    rw [dinsert_of_none [x] h, List.flatMap_append]
    simp only [List.flatMap_cons, List.flatMap_nil, List.append_nil]
    exact (List.perm_append_singleton _ _).nodup_iff.mpr (List.nodup_cons.mpr ⟨hx, hnd⟩)
  | some old =>
    simp only [Option.getD_some]
    obtain ⟨m₁, m₂, hm, hins⟩ := dinsert_decomp h (old ++ [x])
    rw [hins]
    rw [hm] at hnd hx
    simp only [List.flatMap_append, List.flatMap_cons] at hnd hx ⊢
    have hperm : (m₁.flatMap (fun p => p.2) ++ ((old ++ [x]) ++ m₂.flatMap (fun p => p.2))).Perm
        (x :: (m₁.flatMap (fun p => p.2) ++ (old ++ m₂.flatMap (fun p => p.2)))) := by
      have h1 : m₁.flatMap (fun p => p.2) ++ ((old ++ [x]) ++ m₂.flatMap (fun p => p.2))
          = (m₁.flatMap (fun p => p.2) ++ old) ++ x :: m₂.flatMap (fun p => p.2) := by
        simp [List.append_assoc]
      rw [h1]
      refine (List.perm_middle).trans ?_
      rw [List.append_assoc]
    refine hperm.nodup_iff.mpr (List.nodup_cons.mpr ⟨?_, hnd⟩)
    exact hx

/-! ### The resolution invariant

`MasterInv ops e` collects what is true of a `VkEnum` after processing the
declarations `ops` (each name declared at most once) from a fresh state:
resolved names come from declarations; pending dependents are unresolved,
recorded once, and traceable to their alias declaration; a resolved name has
no pending entry of its own; the canonical map is populated exactly by the
resolved values, holds minimal-length names, and points back into
`name_to_value`; and a resolved alias has a resolved base. -/
structure MasterInv (ops : List (String × ConstantSource)) (e : VkEnum) : Prop where
  ntv_src : ∀ n, dlookup e.name_to_value n ≠ none → ∃ s, (n, s) ∈ ops
  fresh : ∀ p ∈ e.name_to_alias_list, ∀ a ∈ p.2, dlookup e.name_to_value a = none
  mem_src : ∀ p ∈ e.name_to_alias_list, ∀ a ∈ p.2, (a, ConstantSource.aliasOf p.1) ∈ ops
  flat_nodup : (e.name_to_alias_list.flatMap (fun p => p.2)).Nodup
  pk : ∀ n, dlookup e.name_to_value n ≠ none → dlookup e.name_to_alias_list n = none
  vmin : ∀ n v, dlookup e.name_to_value n = some v →
    ∃ w, dlookup e.values v = some w ∧ w.length ≤ n.length
  canon : ∀ v w, dlookup e.values v = some w → dlookup e.name_to_value w = some v
  alias_res : ∀ n b, (n, ConstantSource.aliasOf b) ∈ ops →
    dlookup e.name_to_value n ≠ none → dlookup e.name_to_value b ≠ none

theorem MasterInv_apply (ops : List (String × ConstantSource)) (e : VkEnum) (x : String)
    (src : ConstantSource) (v : Int) (f : Nat)
    (hMI : MasterInv ops e)
    (hu : ((ops ++ [(x, src)]).map Prod.fst).Nodup)
    (hx_ops : ∀ s, (x, s) ∉ ops)
    (halias : ∀ b, src = ConstantSource.aliasOf b → dlookup e.name_to_value b ≠ none) :
    MasterInv (ops ++ [(x, src)]) (VkEnum.apply_value (f + 1) e x v) := by
  have hxntv : dlookup e.name_to_value x = none := by
    cases hc : dlookup e.name_to_value x with
    | none => rfl
    | some w =>
      obtain ⟨s, hs⟩ := hMI.ntv_src x (by rw [hc]; exact Option.some_ne_none w)
      exact absurd hs (hx_ops s)
  have hxmem : ∀ p ∈ e.name_to_alias_list, x ∉ p.2 := by
    intro p hp hxin
    exact hx_ops _ (hMI.mem_src p hp x hxin)
  refine ⟨?_, ?_, ?_, ?_, ?_, ?_, ?_, ?_⟩
  · -- ntv_src
    intro n hn
    cases h0 : dlookup e.name_to_value n with
    | some w =>
      obtain ⟨s, hs⟩ := hMI.ntv_src n (by rw [h0]; exact Option.some_ne_none w)
      exact ⟨s, List.mem_append_left _ hs⟩
    | none =>
      rcases VkEnum.apply_ntv_new (f + 1) v e x n h0 hn with he | ⟨p, hp, hnp⟩
      · exact ⟨src, he ▸ List.mem_append_right _ (List.mem_singleton_self _)⟩
      · exact ⟨ConstantSource.aliasOf p.1, List.mem_append_left _ (hMI.mem_src p hp n hnp)⟩
  · -- fresh
    intro p hp a ha
    have hp' : p ∈ e.name_to_alias_list :=
      (VkEnum.apply_pending_sublist (f + 1) v e x).subset hp
    have ha0 : dlookup e.name_to_value a = none := hMI.fresh p hp' a ha
    cases hc : dlookup (VkEnum.apply_value (f + 1) e x v).name_to_value a with
    | none => rfl
    | some w =>
      exfalso
      have hax : a ≠ x := fun hc2 => hxmem p hp' (hc2 ▸ ha)
      obtain ⟨k, lr, hk, halr, hkE⟩ := VkEnum.apply_ins_flush (f + 1) v e x a hax ha0
        (by rw [hc]; exact Option.some_ne_none w)
      have hpair : p = (k, lr) :=
        flat_unique hMI.flat_nodup hp' (dlookup_mem hk) ha halr
      have hne := mem_dlookup_ne_none hp
      rw [hpair] at hne
      exact hne hkE
  · -- mem_src
    intro p hp a ha
    exact List.mem_append_left _
      (hMI.mem_src p ((VkEnum.apply_pending_sublist (f + 1) v e x).subset hp) a ha)
  · -- flat_nodup
    exact hMI.flat_nodup.sublist
      (sublist_flatMap _ (VkEnum.apply_pending_sublist (f + 1) v e x))
  · -- pk
    intro n hn
    cases h0 : dlookup e.name_to_value n with
    | none => exact VkEnum.apply_key_clean (f + 1) v e x n h0 hn
    | some w =>
      have hpnone := hMI.pk n (by rw [h0]; exact Option.some_ne_none w)
      rcases VkEnum.apply_pending_or_none (f + 1) v e x n with h1 | h1
      · rw [h1, hpnone]
      · exact h1
  · -- vmin
    intro n v' hn
    by_cases hv : v' = v
    · subst hv
      exact VkEnum.apply_values_min (f + 1) v' e x (fun m hm => hMI.vmin m v' hm) n hn
    · rcases VkEnum.apply_ntv_or (f + 1) v e x n with h1 | h1
      · rw [h1] at hn
        obtain ⟨w, hw, hl⟩ := hMI.vmin n v' hn
        refine ⟨w, ?_, hl⟩
        rw [VkEnum.apply_values_other (f + 1) v e x v' hv, hw]
      · rw [h1] at hn
        exact absurd (Option.some.inj hn) (fun hc => hv hc.symm)
  · -- canon
    intro v' w hw
    by_cases hv : v' = v
    · subst hv
      exact VkEnum.apply_canon_v (f + 1) v' e x (fun w' hw' => hMI.canon v' w' hw') w hw
    · rw [VkEnum.apply_values_other (f + 1) v e x v' hv] at hw
      have hntvw := hMI.canon v' w hw
      have hframe := VkEnum.apply_ntv_frame (f + 1) v
        (fun m => dlookup e.name_to_value m ≠ none) e x
        (fun hc => hc hxntv)
        (fun p hp a ha hc => hc (hMI.fresh p hp a ha))
        w (show dlookup e.name_to_value w ≠ none by
          rw [hntvw]; exact Option.some_ne_none v')
      rw [hframe, hntvw]
  · -- alias_res
    intro n b hmem hn
    rcases List.mem_append.mp hmem with hold | hnew
    · cases h0 : dlookup e.name_to_value n with
      | some w =>
        exact VkEnum.apply_ntv_ne_none (f + 1) e x v b
          (hMI.alias_res n b hold (by rw [h0]; exact Option.some_ne_none w))
      | none =>
        have hnx : n ≠ x := fun hc => hx_ops _ (hc ▸ hold)
        obtain ⟨k, lr, hk, hnlr, hkE⟩ :=
          VkEnum.apply_ins_flush (f + 1) v e x n hnx h0 hn
        have hsrc2 : (n, ConstantSource.aliasOf k) ∈ ops :=
          hMI.mem_src (k, lr) (dlookup_mem hk) n hnlr
        have hbk : ConstantSource.aliasOf b = ConstantSource.aliasOf k :=
          nodup_keys_unique hu (List.mem_append_left _ hold) (List.mem_append_left _ hsrc2)
        have hb : b = k := ConstantSource.aliasOf.inj hbk
        rcases VkEnum.apply_pending_del (f + 1) v e x k hkE with hnone | hres
        · rw [hk] at hnone
          exact Option.noConfusion hnone
        · rw [hb]
          exact hres
    · have hpe : (n, ConstantSource.aliasOf b) = (x, src) := List.mem_singleton.mp hnew
      have hsrc : src = ConstantSource.aliasOf b := (congrArg Prod.snd hpe).symm
      exact VkEnum.apply_ntv_ne_none (f + 1) e x v b (halias b hsrc)

/-- The pending branch of `add_value`: append the new dependent to the
(possibly fresh) pending list of its unresolved base. -/
def VkEnum.pend_insert (e : VkEnum) (base x : String) : VkEnum :=
  { e with name_to_alias_list := dinsert e.name_to_alias_list base ((dlookup e.name_to_alias_list base).getD [] ++ [x]) }

theorem MasterInv_pend (ops : List (String × ConstantSource)) (e : VkEnum) (x base : String)
    (hMI : MasterInv ops e)
    (hx_ops : ∀ s, (x, s) ∉ ops)
    (hbase : dlookup e.name_to_value base = none) :
    MasterInv (ops ++ [(x, ConstantSource.aliasOf base)]) (VkEnum.pend_insert e base x) := by
  unfold VkEnum.pend_insert
  have hxntv : dlookup e.name_to_value x = none := by
    cases hc : dlookup e.name_to_value x with
    | none => rfl
    | some w =>
      obtain ⟨s, hs⟩ := hMI.ntv_src x (by rw [hc]; exact Option.some_ne_none w)
      exact absurd hs (hx_ops s)
  have hxmem : ∀ p ∈ e.name_to_alias_list, x ∉ p.2 := by
    intro p hp hxin
    exact hx_ops _ (hMI.mem_src p hp x hxin)
  have hold_cases : ∀ a, a ∈ (dlookup e.name_to_alias_list base).getD [] ++ [x] →
      a = x ∨ ∃ ol, dlookup e.name_to_alias_list base = some ol ∧ a ∈ ol := by
    intro a ha
    rcases List.mem_append.mp ha with hl | hr
    · cases hpb : dlookup e.name_to_alias_list base with
      | none =>
        rw [hpb] at hl
        exact absurd hl (List.not_mem_nil a)
      | some ol =>
        rw [hpb] at hl
        exact Or.inr ⟨ol, rfl, hl⟩
    · exact Or.inl (List.mem_singleton.mp hr)
  refine ⟨?_, ?_, ?_, ?_, ?_, ?_, ?_, ?_⟩
  · intro n hn
    obtain ⟨s, hs⟩ := hMI.ntv_src n hn
    exact ⟨s, List.mem_append_left _ hs⟩
  · intro p hp a ha
    rcases dinsert_mem hp with hpo | hpe
    · exact hMI.fresh p hpo a ha
    · rw [hpe] at ha
      rcases hold_cases a ha with hax | ⟨ol, hol, haol⟩
      · rw [hax]
        exact hxntv
      · exact hMI.fresh (base, ol) (dlookup_mem hol) a haol
  · intro p hp a ha
    rcases dinsert_mem hp with hpo | hpe
    · exact List.mem_append_left _ (hMI.mem_src p hpo a ha)
    · rw [hpe] at ha ⊢
      rcases hold_cases a ha with hax | ⟨ol, hol, haol⟩
      · rw [hax]
        exact List.mem_append_right _ (List.mem_singleton_self _)
      · exact List.mem_append_left _ (hMI.mem_src (base, ol) (dlookup_mem hol) a haol)
  · refine pending_flat_insert_nodup e.name_to_alias_list base x hMI.flat_nodup ?_
    intro hx
    obtain ⟨p, hp, hxp⟩ := List.mem_flatMap.mp hx
    exact hxmem p hp hxp
  · intro n hn
    rw [dlookup_dinsert]
    by_cases hnb : n = base
    · rw [hnb] at hn
      exact absurd hbase hn
    · rw [if_neg hnb]
      exact hMI.pk n hn
  · exact hMI.vmin
  · exact hMI.canon
  · intro n b hmem hn
    rcases List.mem_append.mp hmem with hold | hnew
    · exact hMI.alias_res n b hold hn
    · have hpe : (n, ConstantSource.aliasOf b) = (x, ConstantSource.aliasOf base) :=
        List.mem_singleton.mp hnew
      have hnx : n = x := congrArg Prod.fst hpe
      rw [hnx] at hn
      exact absurd hxntv hn

theorem VkEnum.run_ops_append (e : VkEnum) (ops : List (String × ConstantSource))
    (p : String × ConstantSource) :
    VkEnum.run_ops e (ops ++ [p])
      = VkEnum.add_value (pending_count (VkEnum.run_ops e ops) + 1)
          (VkEnum.run_ops e ops) p.1 p.2 := by
  unfold VkEnum.run_ops
  rw [List.foldl_append]
  rfl

theorem MasterInv_step (ops : List (String × ConstantSource)) (e : VkEnum) (x : String)
    (src : ConstantSource)
    (hMI : MasterInv ops e)
    (hu : ((ops ++ [(x, src)]).map Prod.fst).Nodup)
    (hx_ops : ∀ s, (x, s) ∉ ops) :
    MasterInv (ops ++ [(x, src)]) (VkEnum.add_value (pending_count e + 1) e x src) := by
  cases src with
  | literal v =>
    show MasterInv _ (VkEnum.apply_value (pending_count e + 1) e x v)
    exact MasterInv_apply ops e x _ v (pending_count e) hMI hu hx_ops
      (fun b hb => ConstantSource.noConfusion hb)
  | extensionOffset extnum offset err =>
    show MasterInv _ (VkEnum.apply_value (pending_count e + 1) e x
      (if err then -(1000000000 + (extnum - 1) * 1000 + offset)
       else 1000000000 + (extnum - 1) * 1000 + offset))
    exact MasterInv_apply ops e x _ _ (pending_count e) hMI hu hx_ops
      (fun b hb => ConstantSource.noConfusion hb)
  | aliasOf base =>
    cases hb : dlookup e.name_to_value base with
    | none =>
      have hstate : VkEnum.add_value (pending_count e + 1) e x (ConstantSource.aliasOf base)
          = VkEnum.pend_insert e base x := by
        unfold VkEnum.add_value VkEnum.pend_insert
        dsimp only
        rw [hb]
      rw [hstate]
      exact MasterInv_pend ops e x base hMI hx_ops hb
    | some v =>
      have hstate : VkEnum.add_value (pending_count e + 1) e x (ConstantSource.aliasOf base)
          = VkEnum.apply_value (pending_count e + 1) e x v := by
        unfold VkEnum.add_value
        dsimp only
        rw [hb]
      rw [hstate]
      refine MasterInv_apply ops e x _ v (pending_count e) hMI hu hx_ops ?_
      intro b' hb'
      have hbb : base = b' := ConstantSource.aliasOf.inj hb'
      rw [← hbb, hb]
      exact Option.some_ne_none v

theorem MasterInv_run (nm : String) (bw : Nat) (ops : List (String × ConstantSource))
    (hu : (ops.map Prod.fst).Nodup) :
    MasterInv ops (VkEnum.run_ops (VkEnum.mk0 nm bw) ops) := by
  induction ops using List.reverseRecOn with
  | nil =>
    refine ⟨?_, ?_, ?_, ?_, ?_, ?_, ?_, ?_⟩
    · intro n hn
      exact absurd rfl hn
    · intro p hp
      exact absurd hp (List.not_mem_nil p)
    · intro p hp
      exact absurd hp (List.not_mem_nil p)
    · exact List.nodup_nil
    · intro n hn
      exact absurd rfl hn
    · intro n v h
      exact Option.noConfusion h
    · intro v w h
      exact Option.noConfusion h
    · intro n b _ hn
      exact absurd rfl hn
  | append_singleton ops p ih =>
    obtain ⟨x, src⟩ := p
    rw [List.map_append] at hu
    have hu₂ : (ops.map Prod.fst).Nodup := (List.nodup_append.mp hu).1
    have hx_ops : ∀ s, (x, s) ∉ ops := by
      intro s hs
      exact List.disjoint_of_nodup_append hu (List.mem_map_of_mem Prod.fst hs)
        (List.mem_singleton_self x)
    rw [VkEnum.run_ops_append]
    refine MasterInv_step ops _ x src (ih hu₂) ?_ ?_
    · rw [List.map_append]
      exact hu
    · intro s hs
      exact hx_ops s hs

/-! ### C9: re-declaring an identical pair is a no-op -/

/-- C9: if a name already resolves to a value, declaring the same (name,
value) pair again leaves the whole enumeration state — name map, canonical
map, pending map — unchanged. -/
theorem C9_readd_identical_noop (nm : String) (bw : Nat)
    (ops : List (String × ConstantSource)) (name : String) (value : Int)
    (hu : (ops.map Prod.fst).Nodup)
    (hv : dlookup (VkEnum.run_ops (VkEnum.mk0 nm bw) ops).name_to_value name = some value) :
    VkEnum.run_ops (VkEnum.mk0 nm bw) (ops ++ [(name, ConstantSource.literal value)])
      = VkEnum.run_ops (VkEnum.mk0 nm bw) ops := by
  have hMI := MasterInv_run nm bw ops hu
  have hpend : dlookup (VkEnum.run_ops (VkEnum.mk0 nm bw) ops).name_to_alias_list name = none :=
    hMI.pk name (by rw [hv]; exact Option.some_ne_none value)
  obtain ⟨w, hw, hl⟩ := hMI.vmin name value hv
  rw [VkEnum.run_ops_append]
  show VkEnum.apply_value (pending_count (VkEnum.run_ops (VkEnum.mk0 nm bw) ops) + 1)
      (VkEnum.run_ops (VkEnum.mk0 nm bw) ops) name value = _
  rw [VkEnum.apply_value_succ_none _ value hpend]
  unfold VkEnum.record_value
  dsimp only
  rw [dinsert_self _ _ _ hv, hw]
  dsimp only
  rw [if_neg (Nat.not_lt.mpr hl)]

theorem C9_readd_identical_noop_witness :
    dlookup (VkEnum.run_ops (VkEnum.mk0 "VkSample" 32)
        [("VK_A", ConstantSource.literal 1)]).name_to_value "VK_A" = some 1 ∧
    VkEnum.run_ops (VkEnum.mk0 "VkSample" 32)
        ([("VK_A", ConstantSource.literal 1)] ++ [("VK_A", ConstantSource.literal 1)])
      = VkEnum.run_ops (VkEnum.mk0 "VkSample" 32) [("VK_A", ConstantSource.literal 1)] :=
  ⟨by decide, C9_readd_identical_noop "VkSample" 32 [("VK_A", ConstantSource.literal 1)]
    "VK_A" 1 (by decide) (by decide)⟩

/-! ### C4: the all-bits mask -/

/-- C4: after the whole resolution pass, the all-bits reduction over the
canonical map's keys equals the bitwise or of the distinct resolved values:
for any list enumerating exactly the values some name resolves to, the
reduction equals its or. -/
theorem C4_all_bits_or (nm : String) (bw : Nat) (ops : List (String × ConstantSource))
    (vals : List Int) (hu : (ops.map Prod.fst).Nodup)
    (hvals : ∀ x : Int, x ∈ vals ↔
      ∃ n, dlookup (VkEnum.run_ops (VkEnum.mk0 nm bw) ops).name_to_value n = some x) :
    VkEnum.all_bits_value (VkEnum.run_ops (VkEnum.mk0 nm bw) ops) = orList vals := by
  have hMI := MasterInv_run nm bw ops hu
  unfold VkEnum.all_bits_value
  rw [← List.foldl_map, orList_foldl, int_zero_lor]
  refine orList_eq_of_mem_iff ?_
  intro x
  rw [← dlookup_ne_none_iff, hvals x]
  constructor
  · intro hx
    obtain ⟨w, hw⟩ := Option.ne_none_iff_exists.mp hx
    exact ⟨w, hMI.canon x w hw.symm⟩
  · rintro ⟨n, hn⟩
    obtain ⟨w, hw, _⟩ := hMI.vmin n x hn
    rw [hw]
    exact Option.some_ne_none w

theorem C4_all_bits_or_witness :
    (∀ x : Int, x ∈ [1, 2] ↔
      ∃ n, dlookup (VkEnum.run_ops (VkEnum.mk0 "VkSampleFlagBits" 32)
        [("VK_C", ConstantSource.aliasOf "VK_A"), ("VK_A", ConstantSource.literal 1),
         ("VK_B", ConstantSource.literal 2)]).name_to_value n = some x) ∧
    VkEnum.all_bits_value (VkEnum.run_ops (VkEnum.mk0 "VkSampleFlagBits" 32)
        [("VK_C", ConstantSource.aliasOf "VK_A"), ("VK_A", ConstantSource.literal 1),
         ("VK_B", ConstantSource.literal 2)]) = orList [1, 2] := by
  have hmem : ∀ x : Int, x ∈ [(1 : Int), 2] ↔
      ∃ n, dlookup (VkEnum.run_ops (VkEnum.mk0 "VkSampleFlagBits" 32)
        [("VK_C", ConstantSource.aliasOf "VK_A"), ("VK_A", ConstantSource.literal 1),
         ("VK_B", ConstantSource.literal 2)]).name_to_value n = some x := by
    have hntv : (VkEnum.run_ops (VkEnum.mk0 "VkSampleFlagBits" 32)
        [("VK_C", ConstantSource.aliasOf "VK_A"), ("VK_A", ConstantSource.literal 1),
         ("VK_B", ConstantSource.literal 2)]).name_to_value
        = [("VK_A", 1), ("VK_C", 1), ("VK_B", 2)] := by decide
    intro x
    rw [hntv]
    constructor
    · intro hx
      rcases List.mem_cons.mp hx with h1 | hx2
      · exact ⟨"VK_A", by rw [h1]; decide⟩
      · rcases List.mem_cons.mp hx2 with h2 | hx3
        · exact ⟨"VK_B", by rw [h2]; decide⟩
        · exact absurd hx3 (List.not_mem_nil x)
    · rintro ⟨n, hn⟩
      have hp := dlookup_mem hn
      rcases List.mem_cons.mp hp with h1 | hp2
      · have hx1 : x = 1 := congrArg Prod.snd h1
        rw [hx1]
        decide
      · rcases List.mem_cons.mp hp2 with h2 | hp3
        · have hx1 : x = 1 := congrArg Prod.snd h2
          rw [hx1]
          decide
        · rcases List.mem_cons.mp hp3 with h3 | hp4
          · have hx2 : x = 2 := congrArg Prod.snd h3
            rw [hx2]
            decide
          · exact absurd hp4 (List.not_mem_nil _)
  exact ⟨hmem, C4_all_bits_or "VkSampleFlagBits" 32
    [("VK_C", ConstantSource.aliasOf "VK_A"), ("VK_A", ConstantSource.literal 1),
     ("VK_B", ConstantSource.literal 2)] [1, 2] (by decide) hmem⟩

/-! ### C10: aliases of a never-resolved base are silently left pending -/

theorem VkEnum.add_value_ntv_ne_none (fuel : Nat) (e : VkEnum) (x : String)
    (src : ConstantSource) (m : String) (h : dlookup e.name_to_value m ≠ none) :
    dlookup (VkEnum.add_value fuel e x src).name_to_value m ≠ none := by
  cases src with
  | literal v => exact VkEnum.apply_ntv_ne_none fuel e x v m h
  | extensionOffset extnum offset err => exact VkEnum.apply_ntv_ne_none fuel e x _ m h
  | aliasOf base =>
    cases hb : dlookup e.name_to_value base with
    | none =>
      have hstate : VkEnum.add_value fuel e x (ConstantSource.aliasOf base)
          = VkEnum.pend_insert e base x := by
        unfold VkEnum.add_value VkEnum.pend_insert
        dsimp only
        rw [hb]
      rw [hstate]
      exact h
    | some v =>
      have hstate : VkEnum.add_value fuel e x (ConstantSource.aliasOf base)
          = VkEnum.apply_value fuel e x v := by
        unfold VkEnum.add_value
        dsimp only
        rw [hb]
      rw [hstate]
      exact VkEnum.apply_ntv_ne_none fuel e x v m h

theorem VkEnum.apply_pending_persist (fuel : Nat) (e : VkEnum) (x : String) (v : Int)
    (base : String) (l : List String) (hl : dlookup e.name_to_alias_list base = some l)
    (hbase : dlookup (VkEnum.apply_value fuel e x v).name_to_value base = none) :
    dlookup (VkEnum.apply_value fuel e x v).name_to_alias_list base = some l := by
  rcases VkEnum.apply_pending_or_none fuel v e x base with h1 | h1
  · rw [h1, hl]
  · rcases VkEnum.apply_pending_del fuel v e x base h1 with h2 | h2
    · rw [hl] at h2
      exact Option.noConfusion h2
    · exact absurd hbase h2

/-- A dependent pending under a base that never resolves stays recorded in
that base's pending list for the rest of the run. -/
theorem alias_pending_persist (nm : String) (bw : Nat) :
    ∀ (ops : List (String × ConstantSource)) (name base : String),
      (name, ConstantSource.aliasOf base) ∈ ops →
      dlookup (VkEnum.run_ops (VkEnum.mk0 nm bw) ops).name_to_value base = none →
      ∃ l, dlookup (VkEnum.run_ops (VkEnum.mk0 nm bw) ops).name_to_alias_list base
            = some l ∧ name ∈ l := by
  intro ops
  induction ops using List.reverseRecOn with
  | nil => intro name base hmem _; exact absurd hmem (List.not_mem_nil _)
  | append_singleton ops p ih =>
    intro name base hmem hbase
    obtain ⟨x, src⟩ := p
    rw [VkEnum.run_ops_append] at hbase ⊢
    have hbase_st : dlookup (VkEnum.run_ops (VkEnum.mk0 nm bw) ops).name_to_value base
        = none := by
      cases hc : dlookup (VkEnum.run_ops (VkEnum.mk0 nm bw) ops).name_to_value base with
      | none => rfl
      | some w =>
        exact absurd hbase (VkEnum.add_value_ntv_ne_none _ _ x src base
          (by rw [hc]; exact Option.some_ne_none w))
    rcases List.mem_append.mp hmem with hold | hnew
    · obtain ⟨l, hl, hn⟩ := ih name base hold hbase_st
      cases src with
      | literal v =>
        exact ⟨l, VkEnum.apply_pending_persist _ _ x v base l hl hbase, hn⟩
      | extensionOffset extnum offset err =>
        exact ⟨l, VkEnum.apply_pending_persist _ _ x _ base l hl hbase, hn⟩
      | aliasOf b' =>
        cases hb : dlookup (VkEnum.run_ops (VkEnum.mk0 nm bw) ops).name_to_value b' with
        | some v =>
          have hstate : VkEnum.add_value
              (pending_count (VkEnum.run_ops (VkEnum.mk0 nm bw) ops) + 1)
              (VkEnum.run_ops (VkEnum.mk0 nm bw) ops) x (ConstantSource.aliasOf b')
              = VkEnum.apply_value
                  (pending_count (VkEnum.run_ops (VkEnum.mk0 nm bw) ops) + 1)
                  (VkEnum.run_ops (VkEnum.mk0 nm bw) ops) x v := by
            unfold VkEnum.add_value
            dsimp only
            rw [hb]
          rw [hstate] at hbase ⊢
          exact ⟨l, VkEnum.apply_pending_persist _ _ x v base l hl hbase, hn⟩
        | none =>
          have hstate : VkEnum.add_value
              (pending_count (VkEnum.run_ops (VkEnum.mk0 nm bw) ops) + 1)
              (VkEnum.run_ops (VkEnum.mk0 nm bw) ops) x (ConstantSource.aliasOf b')
              = VkEnum.pend_insert (VkEnum.run_ops (VkEnum.mk0 nm bw) ops) b' x := by
            unfold VkEnum.add_value VkEnum.pend_insert
            dsimp only
            rw [hb]
          rw [hstate]
          show ∃ l', dlookup (dinsert _ b' _) base = some l' ∧ name ∈ l'
          rw [dlookup_dinsert]
          by_cases hbb : base = b'
          · rw [if_pos hbb, ← hbb, hl]
            exact ⟨l ++ [x], by rw [Option.getD_some], List.mem_append_left _ hn⟩
          · rw [if_neg hbb]
            exact ⟨l, hl, hn⟩
    · have hpe : (name, ConstantSource.aliasOf base) = (x, src) := List.mem_singleton.mp hnew
      have hxn : name = x := congrArg Prod.fst hpe
      have hsrc : src = ConstantSource.aliasOf base := (congrArg Prod.snd hpe).symm
      subst hsrc
      rw [hxn]
      have hstate : VkEnum.add_value
          (pending_count (VkEnum.run_ops (VkEnum.mk0 nm bw) ops) + 1)
          (VkEnum.run_ops (VkEnum.mk0 nm bw) ops) x (ConstantSource.aliasOf base)
          = VkEnum.pend_insert (VkEnum.run_ops (VkEnum.mk0 nm bw) ops) base x := by
        unfold VkEnum.add_value VkEnum.pend_insert
        dsimp only
        rw [hbase_st]
      rw [hstate]
      show ∃ l', dlookup (dinsert _ base _) base = some l' ∧ x ∈ l'
      rw [dlookup_dinsert, if_pos rfl]
      exact ⟨_, rfl, List.mem_append_right _ (List.mem_singleton_self _)⟩

/-- C10: a constant declared only as an alias of a base that never acquires a
value is silently omitted: it resolves to nothing, is no value's canonical
name, and sits (only) in the pending list of its base; no error is raised
(`add_value` simply returns). -/
theorem C10_unresolvable_alias_silent (nm : String) (bw : Nat)
    (ops : List (String × ConstantSource)) (name base : String)
    (hu : (ops.map Prod.fst).Nodup)
    (hdecl : (name, ConstantSource.aliasOf base) ∈ ops)
    (hbase : dlookup (VkEnum.run_ops (VkEnum.mk0 nm bw) ops).name_to_value base = none) :
    dlookup (VkEnum.run_ops (VkEnum.mk0 nm bw) ops).name_to_value name = none ∧
    (∀ v w, dlookup (VkEnum.run_ops (VkEnum.mk0 nm bw) ops).values v = some w →
      w ≠ name) ∧
    (∃ l, dlookup (VkEnum.run_ops (VkEnum.mk0 nm bw) ops).name_to_alias_list base
        = some l ∧ name ∈ l) := by
  have hMI := MasterInv_run nm bw ops hu
  have h1 : dlookup (VkEnum.run_ops (VkEnum.mk0 nm bw) ops).name_to_value name = none := by
    cases hc : dlookup (VkEnum.run_ops (VkEnum.mk0 nm bw) ops).name_to_value name with
    | none => rfl
    | some w =>
      exact absurd hbase (hMI.alias_res name base hdecl
        (by rw [hc]; exact Option.some_ne_none w))
  refine ⟨h1, ?_, alias_pending_persist nm bw ops name base hdecl hbase⟩
  intro v w hw hwn
  have hcan := hMI.canon v w hw
  rw [hwn, h1] at hcan
  exact Option.noConfusion hcan

theorem C10_unresolvable_alias_witness :
    ("VK_B", ConstantSource.aliasOf "VK_A") ∈ [("VK_B", ConstantSource.aliasOf "VK_A")] ∧
    dlookup (VkEnum.run_ops (VkEnum.mk0 "VkSample" 32)
        [("VK_B", ConstantSource.aliasOf "VK_A")]).name_to_value "VK_A" = none ∧
    (dlookup (VkEnum.run_ops (VkEnum.mk0 "VkSample" 32)
        [("VK_B", ConstantSource.aliasOf "VK_A")]).name_to_value "VK_B" = none ∧
     (∀ v w, dlookup (VkEnum.run_ops (VkEnum.mk0 "VkSample" 32)
        [("VK_B", ConstantSource.aliasOf "VK_A")]).values v = some w → w ≠ "VK_B") ∧
     (∃ l, dlookup (VkEnum.run_ops (VkEnum.mk0 "VkSample" 32)
        [("VK_B", ConstantSource.aliasOf "VK_A")]).name_to_alias_list "VK_A"
          = some l ∧ "VK_B" ∈ l)) :=
  ⟨by decide, by decide,
   C10_unresolvable_alias_silent "VkSample" 32 [("VK_B", ConstantSource.aliasOf "VK_A")]
     "VK_B" "VK_A" (by decide) (by decide) (by decide)⟩

/-! ### C2: alias chains resolve through the pending multimap

A chain is a list of distinct constant names: index `0` is declared with a
literal value and index `i (> 0)` as `AliasOf` the name at `i − 1`.  The
declarations may arrive in any order; `chainRes S j` says that with the index
set `S` already declared, the chain member `j` is resolved (every link from
the literal up to `j` has been seen). -/

def chainName (names : List String) (i : Nat) : String := names.getD i ""

/-- The `add_value` argument for chain member `i`. -/
def chainOp (names : List String) (v : Int) (i : Nat) : String × ConstantSource :=
  (chainName names i,
   if i = 0 then ConstantSource.literal v
   else ConstantSource.aliasOf (chainName names (i - 1)))

/-- Member `j` is resolved once every index up to `j` has been declared. -/
def chainRes (S : List Nat) (j : Nat) : Prop := ∀ j' ≤ j, j' ∈ S

/-- State characterization after declaring the index set `S` of a chain:
resolved members map to the value, unresolved ones are absent, and the
pending multimap holds exactly the declared-but-blocked successor links. -/
structure ChainInv (names : List String) (v : Int) (S : List Nat) (st : VkEnum) : Prop where
  resolved : ∀ j, j < names.length → chainRes S j →
    dlookup st.name_to_value (chainName names j) = some v
  unresolved : ∀ j, j < names.length → ¬ chainRes S j →
    dlookup st.name_to_value (chainName names j) = none
  pend_some : ∀ j, j < names.length → j + 1 < names.length → (j + 1) ∈ S →
    ¬ chainRes S j →
    dlookup st.name_to_alias_list (chainName names j) = some [chainName names (j + 1)]
  pend_none : ∀ j, j < names.length →
    ¬ (j + 1 < names.length ∧ (j + 1) ∈ S ∧ ¬ chainRes S j) →
    dlookup st.name_to_alias_list (chainName names j) = none

/-- End of the already-declared run above `i`: the largest index reachable
from `i` through consecutively declared successors (fuel-bounded walk). -/
def chainEnd (S : List Nat) (n : Nat) : Nat → Nat → Nat
  | 0, i => i
  | f + 1, i => if i + 1 < n ∧ (i + 1) ∈ S then chainEnd S n f (i + 1) else i

theorem chainName_inj {names : List String} (hnd : names.Nodup) {i j : Nat}
    (hi : i < names.length) (hj : j < names.length)
    (h : chainName names i = chainName names j) : i = j := by
  unfold chainName at h
  rw [List.getD_eq_getElem names "" hi, List.getD_eq_getElem names "" hj] at h
  exact (List.Nodup.getElem_inj_iff hnd).mp h

theorem chainRes_not {S : List Nat} {i0 j : Nat} (hi0 : i0 ∉ S) (hij : i0 ≤ j) :
    ¬ chainRes S j :=
  fun hres => hi0 (hres i0 hij)

theorem chainEnd_ge (S : List Nat) (n : Nat) : ∀ (f i : Nat), i ≤ chainEnd S n f i := by
  intro f
  induction f with
  | zero => intro i; exact Nat.le_refl i
  | succ f ih =>
    intro i
    unfold chainEnd
    by_cases h : i + 1 < n ∧ (i + 1) ∈ S
    · rw [if_pos h]
      exact Nat.le_trans (Nat.le_succ i) (ih (i + 1))
    · rw [if_neg h]

theorem chainEnd_window (S : List Nat) (n : Nat) :
    ∀ (f i j : Nat), i < j → j ≤ chainEnd S n f i → j ∈ S ∧ j < n := by
  intro f
  induction f with
  | zero =>
    intro i j hij hle
    exact absurd (Nat.lt_of_lt_of_le hij hle) (Nat.lt_irrefl i)
  | succ f ih =>
    intro i j hij hle
    unfold chainEnd at hle
    by_cases h : i + 1 < n ∧ (i + 1) ∈ S
    · rw [if_pos h] at hle
      by_cases hji : j = i + 1
      · exact ⟨hji ▸ h.2, hji ▸ h.1⟩
      · exact ih (i + 1) j (Nat.lt_of_le_of_ne (Nat.succ_le_of_lt hij) (fun hc => hji hc.symm)) hle
    · rw [if_neg h] at hle
      exact absurd (Nat.lt_of_lt_of_le hij hle) (Nat.lt_irrefl i)

theorem chainEnd_max (S : List Nat) (n : Nat) :
    ∀ (f i : Nat), n ≤ f + i →
      ¬ (chainEnd S n f i + 1 < n ∧ (chainEnd S n f i + 1) ∈ S) := by
  intro f
  induction f with
  | zero =>
    intro i hn hc
    unfold chainEnd at hc
    omega
  | succ f ih =>
    intro i hn
    unfold chainEnd
    by_cases h : i + 1 < n ∧ (i + 1) ∈ S
    · rw [if_pos h]
      exact ih (i + 1) (by omega)
    · rw [if_neg h]
      exact h

/-- Declaring `i0` extends the resolved set exactly along the declared run
`[i0, E]`, provided everything below `i0` was already resolved. -/
theorem chainRes_ext {S : List Nat} {i0 E n : Nat}
    (hwin : ∀ j, i0 < j → j ≤ E → j ∈ S ∧ j < n)
    (hmax : ¬ (E + 1 < n ∧ (E + 1) ∈ S))
    (hi0S : i0 ∉ S) (hi0E : i0 ≤ E) (hEn : E < n)
    (hbase : i0 = 0 ∨ chainRes S (i0 - 1)) :
    ∀ j, j < n → (chainRes (S ++ [i0]) j ↔ chainRes S j ∨ (i0 ≤ j ∧ j ≤ E)) := by
  intro j hjn
  constructor
  · intro hres
    by_cases hji : j < i0
    · left
      intro j' hj'
      rcases List.mem_append.mp (hres j' hj') with h | h
      · exact h
      · exact absurd (List.mem_singleton.mp h) (by omega)
    · right
      refine ⟨by omega, ?_⟩
      by_contra hjE
      have hE1j : E + 1 ≤ j := by omega
      have hE1 : (E + 1) ∈ S ++ [i0] := hres (E + 1) hE1j
      rcases List.mem_append.mp hE1 with h | h
      · exact hmax ⟨by omega, h⟩
      · have := List.mem_singleton.mp h
        omega
  · intro hres
    rcases hres with hres | ⟨hij, hjE⟩
    · intro j' hj'
      exact List.mem_append_left _ (hres j' hj')
    · intro j' hj'
      by_cases hj'i : j' < i0
      · rcases hbase with h0 | hbase
        · omega
        · exact List.mem_append_left _ (hbase j' (by omega))
      · by_cases hj'e : j' = i0
        · exact List.mem_append_right _ (hj'e ▸ List.mem_singleton_self i0)
        · exact List.mem_append_left _ (hwin j' (by omega) (by omega)).1

theorem distinct_keys_length {β : Type} (xs : List String) (m : List (String × β))
    (hnd : xs.Nodup) (hmem : ∀ x ∈ xs, dlookup m x ≠ none) : xs.length ≤ m.length := by
  have h1 : xs.toFinset.card = xs.length := List.toFinset_card_of_nodup hnd
  have h2 : xs.toFinset ⊆ (m.map Prod.fst).toFinset := by
    intro x hx
    rw [List.mem_toFinset] at hx ⊢
    exact (dlookup_ne_none_iff m x).mp (hmem x hx)
  calc xs.length = xs.toFinset.card := h1.symm
    _ ≤ (m.map Prod.fst).toFinset.card := Finset.card_le_card h2
    _ ≤ (m.map Prod.fst).length := (m.map Prod.fst).toFinset_card_le
    _ = m.length := List.length_map m Prod.fst

/-- Cascade lemma for chains: applying the value to member `i` (whose prefix
is resolved) resolves every declared successor up to the end of the declared
run, deleting the flushed pending entries and touching nothing else. -/
theorem chainUP (names : List String) (v : Int) (S : List Nat) (i0 : Nat)
    (hnd : names.Nodup) (hi0S : i0 ∉ S) :
    ∀ (d i : Nat) (st : VkEnum) (f : Nat),
      i0 ≤ i → i ≤ chainEnd S names.length names.length i0 →
      d = chainEnd S names.length names.length i0 - i →
      chainEnd S names.length names.length i0 < names.length →
      (∀ j, i0 < j → j ≤ chainEnd S names.length names.length i0 →
        j ∈ S ∧ j < names.length) →
      ¬ (chainEnd S names.length names.length i0 + 1 < names.length ∧
         (chainEnd S names.length names.length i0 + 1) ∈ S) →
      f + 1 ≥ chainEnd S names.length names.length i0 - i + 1 →
      (∀ j, j < names.length → (chainRes S j ∨ (i0 ≤ j ∧ j < i)) →
        dlookup st.name_to_value (chainName names j) = some v) →
      (∀ j, j < names.length → ¬ (chainRes S j ∨ (i0 ≤ j ∧ j < i)) →
        dlookup st.name_to_value (chainName names j) = none) →
      (∀ j, j < names.length → j + 1 < names.length → (j + 1) ∈ S → ¬ chainRes S j →
        dlookup st.name_to_alias_list (chainName names j)
          = some [chainName names (j + 1)]) →
      (∀ j, j < names.length →
        ¬ (j + 1 < names.length ∧ (j + 1) ∈ S ∧ ¬ chainRes S j) →
        dlookup st.name_to_alias_list (chainName names j) = none) →
      (∀ j, j < names.length →
        (chainRes S j ∨ (i0 ≤ j ∧ j ≤ chainEnd S names.length names.length i0)) →
        dlookup (VkEnum.apply_value (f + 1) st (chainName names i) v).name_to_value
          (chainName names j) = some v) ∧
      (∀ j, j < names.length →
        ¬ (chainRes S j ∨ (i0 ≤ j ∧ j ≤ chainEnd S names.length names.length i0)) →
        dlookup (VkEnum.apply_value (f + 1) st (chainName names i) v).name_to_value
          (chainName names j) = none) ∧
      (∀ j, j < names.length → i ≤ j → j ≤ chainEnd S names.length names.length i0 →
        dlookup (VkEnum.apply_value (f + 1) st (chainName names i) v).name_to_alias_list
          (chainName names j) = none) ∧
      (∀ j, j < names.length → ¬ (i ≤ j ∧ j ≤ chainEnd S names.length names.length i0) →
        dlookup (VkEnum.apply_value (f + 1) st (chainName names i) v).name_to_alias_list
          (chainName names j) = dlookup st.name_to_alias_list (chainName names j)) := by
  intro d
  induction d with
  | zero =>
    intro i st f hi0i hiE hd hEn hwin hmax _ hntv1 hntv0 _ hpn
    have hiE' : i = chainEnd S names.length names.length i0 := by omega
    have hpi : dlookup st.name_to_alias_list (chainName names i) = none := by
      refine hpn i (by omega) ?_
      rintro ⟨h1, h2, _⟩
      refine hmax ⟨by omega, ?_⟩
      have heq : chainEnd S names.length names.length i0 + 1 = i + 1 := by omega
      rw [heq]
      exact h2
    rw [VkEnum.apply_value_succ_none f v hpi]
    refine ⟨?_, ?_, ?_, ?_⟩
    · intro j hj hcond
      rw [VkEnum.record_value_ntv_lookup]
      by_cases hji : chainName names j = chainName names i
      · rw [if_pos hji]
      · rw [if_neg hji]
        refine hntv1 j hj ?_
        rcases hcond with h | ⟨h1, h2⟩
        · exact Or.inl h
        · have hne : j ≠ i := fun hc => hji (by rw [hc])
          exact Or.inr ⟨h1, by omega⟩
    · intro j hj hcond
      rw [VkEnum.record_value_ntv_lookup]
      by_cases hji : chainName names j = chainName names i
      · exfalso
        have hjieq : j = i := chainName_inj hnd hj (by omega) hji
        exact hcond (Or.inr ⟨by omega, by omega⟩)
      · rw [if_neg hji]
        refine hntv0 j hj ?_
        rintro (h | ⟨h1, h2⟩)
        · exact hcond (Or.inl h)
        · exact hcond (Or.inr ⟨h1, by omega⟩)
    · intro j hj hij hjE
      have hji : j = i := by omega
      rw [VkEnum.record_value_pending, hji]
      exact hpi
    · intro j hj _
      rw [VkEnum.record_value_pending]
  | succ d ih =>
    intro i st f hi0i hiE hd hEn hwin hmax hfuel hntv1 hntv0 hps hpn
    have hin : i < names.length := by omega
    have hi1n : i + 1 < names.length := (hwin (i + 1) (by omega) (by omega)).2
    have hi1S : (i + 1) ∈ S := (hwin (i + 1) (by omega) (by omega)).1
    have hpi : dlookup st.name_to_alias_list (chainName names i)
        = some [chainName names (i + 1)] :=
      hps i hin hi1n hi1S (chainRes_not hi0S hi0i)
    obtain ⟨f', rfl⟩ : ∃ f', f = f' + 1 := ⟨f - 1, by omega⟩
    have hEq := VkEnum.apply_value_succ_some (f' + 1) v hpi
    have hfold : [chainName names (i + 1)].foldl
        (fun acc a => VkEnum.apply_value (f' + 1) acc a v)
        (st.record_value (chainName names i) v)
        = VkEnum.apply_value (f' + 1) (st.record_value (chainName names i) v)
            (chainName names (i + 1)) v := by
      rw [List.foldl_cons, List.foldl_nil]
    have hntvE : (VkEnum.apply_value (f' + 1 + 1) st (chainName names i) v).name_to_value
        = (VkEnum.apply_value (f' + 1) (st.record_value (chainName names i) v)
            (chainName names (i + 1)) v).name_to_value := by
      rw [hEq]
      dsimp only
      rw [hfold]
    have hpndE : (VkEnum.apply_value (f' + 1 + 1) st
          (chainName names i) v).name_to_alias_list
        = dremove (VkEnum.apply_value (f' + 1) (st.record_value (chainName names i) v)
            (chainName names (i + 1)) v).name_to_alias_list (chainName names i) := by
      rw [hEq]
      dsimp only
      rw [hfold]
    have h2ntv1 : ∀ j, j < names.length → (chainRes S j ∨ (i0 ≤ j ∧ j < i + 1)) →
        dlookup (st.record_value (chainName names i) v).name_to_value (chainName names j)
          = some v := by
      intro j hj hcond
      rw [VkEnum.record_value_ntv_lookup]
      by_cases hji : chainName names j = chainName names i
      · rw [if_pos hji]
      · rw [if_neg hji]
        refine hntv1 j hj ?_
        rcases hcond with h | ⟨h1, h2⟩
        · exact Or.inl h
        · have hne : j ≠ i := fun hc => hji (by rw [hc])
          exact Or.inr ⟨h1, by omega⟩
    have h2ntv0 : ∀ j, j < names.length → ¬ (chainRes S j ∨ (i0 ≤ j ∧ j < i + 1)) →
        dlookup (st.record_value (chainName names i) v).name_to_value (chainName names j)
          = none := by
      intro j hj hcond
      rw [VkEnum.record_value_ntv_lookup]
      by_cases hji : chainName names j = chainName names i
      · exfalso
        have hjieq : j = i := chainName_inj hnd hj hin hji
        exact hcond (Or.inr ⟨by omega, by omega⟩)
      · rw [if_neg hji]
        refine hntv0 j hj ?_
        rintro (h | ⟨h1, h2⟩)
        · exact hcond (Or.inl h)
        · exact hcond (Or.inr ⟨h1, by omega⟩)
    have h2ps : ∀ j, j < names.length → j + 1 < names.length → (j + 1) ∈ S →
        ¬ chainRes S j →
        dlookup (st.record_value (chainName names i) v).name_to_alias_list
          (chainName names j) = some [chainName names (j + 1)] := by
      intro j hj h1 h2 h3
      rw [VkEnum.record_value_pending]
      exact hps j hj h1 h2 h3
    have h2pn : ∀ j, j < names.length →
        ¬ (j + 1 < names.length ∧ (j + 1) ∈ S ∧ ¬ chainRes S j) →
        dlookup (st.record_value (chainName names i) v).name_to_alias_list
          (chainName names j) = none := by
      intro j hj hc
      rw [VkEnum.record_value_pending]
      exact hpn j hj hc
    obtain ⟨c1, c2, c3, c4⟩ := ih (i + 1) (st.record_value (chainName names i) v) f'
      (by omega) (by omega) (by omega) hEn hwin hmax (by omega) h2ntv1 h2ntv0 h2ps h2pn
    refine ⟨?_, ?_, ?_, ?_⟩
    · intro j hj hcond
      rw [hntvE]
      exact c1 j hj hcond
    · intro j hj hcond
      rw [hntvE]
      exact c2 j hj hcond
    · intro j hj hij hjE
      rw [hpndE, dlookup_dremove]
      by_cases hji : chainName names j = chainName names i
      · rw [if_pos hji]
      · rw [if_neg hji]
        have hjneq : j ≠ i := fun hc => hji (by rw [hc])
        exact c3 j hj (by omega) hjE
    · intro j hj hcond
      rw [hpndE, dlookup_dremove]
      have hjneq : j ≠ i := by
        intro hc
        exact hcond ⟨by omega, by omega⟩
      have hji : chainName names j ≠ chainName names i :=
        fun hc => hjneq (chainName_inj hnd hj hin hc)
      rw [if_neg hji]
      rw [c4 j hj (by rintro ⟨h1, h2⟩; exact hcond ⟨by omega, h2⟩)]
      rw [VkEnum.record_value_pending]

theorem chainEnd_lt (S : List Nat) (n : Nat) :
    ∀ (f i : Nat), i < n → chainEnd S n f i < n := by
  intro f
  induction f with
  | zero =>
    intro i h
    exact h
  | succ f ih =>
    intro i h
    unfold chainEnd
    by_cases hc : i + 1 < n ∧ (i + 1) ∈ S
    · rw [if_pos hc]
      exact ih (i + 1) hc.1
    · rw [if_neg hc]
      exact h

/-- Declaring a blocked member (its predecessor is unresolved) changes no
member's resolution status. -/
theorem chainRes_blocked {S : List Nat} {i0 : Nat} (hi01 : 1 ≤ i0)
    (hbres : ¬ chainRes S (i0 - 1)) :
    ∀ j, chainRes (S ++ [i0]) j ↔ chainRes S j := by
  intro j
  constructor
  · intro hres
    by_cases hji : j < i0
    · intro j' hj'
      rcases List.mem_append.mp (hres j' hj') with h | h
      · exact h
      · exact absurd (List.mem_singleton.mp h) (by omega)
    · exfalso
      refine hbres ?_
      intro j' hj'
      rcases List.mem_append.mp (hres j' (by omega)) with h | h
      · exact h
      · have hj'i0 := List.mem_singleton.mp h
        omega
  · intro hres j' hj'
    exact List.mem_append_left _ (hres j' hj')

/-- One `add_value` step preserves the chain invariant, extending the declared
index set by the declared member. -/
theorem chainStep (names : List String) (v : Int) (S : List Nat) (st : VkEnum) (i0 : Nat)
    (hnd : names.Nodup) (hinv : ChainInv names v S st) (hi0S : i0 ∉ S)
    (hi0n : i0 < names.length) :
    ChainInv names v (S ++ [i0])
      (VkEnum.add_value (pending_count st + 1) st (chainOp names v i0).1
        (chainOp names v i0).2) := by
  by_cases hblock : i0 ≠ 0 ∧ ¬ chainRes S (i0 - 1)
  · obtain ⟨hi00, hbres⟩ := hblock
    have hi01 : 1 ≤ i0 := Nat.one_le_iff_ne_zero.mpr hi00
    have hbase_none : dlookup st.name_to_value (chainName names (i0 - 1)) = none :=
      hinv.unresolved (i0 - 1) (by omega) hbres
    have hpb : dlookup st.name_to_alias_list (chainName names (i0 - 1)) = none := by
      refine hinv.pend_none (i0 - 1) (by omega) ?_
      rintro ⟨h1, h2, h3⟩
      have he : i0 - 1 + 1 = i0 := by omega
      rw [he] at h2
      exact hi0S h2
    have hstate : VkEnum.add_value (pending_count st + 1) st (chainOp names v i0).1
          (chainOp names v i0).2
        = VkEnum.pend_insert st (chainName names (i0 - 1)) (chainName names i0) := by
      have hop2 : (chainOp names v i0).2
          = ConstantSource.aliasOf (chainName names (i0 - 1)) := by
        dsimp only [chainOp]
        rw [if_neg hi00]
      rw [hop2]
      show VkEnum.add_value (pending_count st + 1) st (chainName names i0)
        (ConstantSource.aliasOf (chainName names (i0 - 1))) = _
      unfold VkEnum.add_value VkEnum.pend_insert
      dsimp only
      rw [hbase_none]
    rw [hstate]
    have hresiff := chainRes_blocked hi01 hbres
    refine ⟨?_, ?_, ?_, ?_⟩
    · intro j hj hres
      dsimp only [VkEnum.pend_insert]
      exact hinv.resolved j hj ((hresiff j).mp hres)
    · intro j hj hres
      dsimp only [VkEnum.pend_insert]
      exact hinv.unresolved j hj (fun hc => hres ((hresiff j).mpr hc))
    · intro j hj hj1n hj1S hnres
      dsimp only [VkEnum.pend_insert]
      rw [dlookup_dinsert, hpb]
      rcases List.mem_append.mp hj1S with hj1S' | hj1i0
      · have hnresS : ¬ chainRes S j := fun hc => hnres ((hresiff j).mpr hc)
        by_cases hji : j = i0 - 1
        · exfalso
          have he : j + 1 = i0 := by omega
          rw [he] at hj1S'
          exact hi0S hj1S'
        · have hne : chainName names j ≠ chainName names (i0 - 1) :=
            fun hc => hji (chainName_inj hnd hj (by omega) hc)
          rw [if_neg hne]
          exact hinv.pend_some j hj hj1n hj1S' hnresS
      · have hj1 : j + 1 = i0 := List.mem_singleton.mp hj1i0
        have hji : j = i0 - 1 := by omega
        have heq : chainName names j = chainName names (i0 - 1) := by rw [hji]
        rw [if_pos heq, hj1]
        rfl
    · intro j hj hcond
      dsimp only [VkEnum.pend_insert]
      rw [dlookup_dinsert]
      by_cases heq : chainName names j = chainName names (i0 - 1)
      · exfalso
        have hji : j = i0 - 1 := chainName_inj hnd hj (by omega) heq
        refine hcond ⟨by omega, ?_, ?_⟩
        · have he : j + 1 = i0 := by omega
          rw [he]
          exact List.mem_append_right _ (List.mem_singleton_self i0)
        · intro hres'
          have hcr : chainRes S j := (hresiff j).mp hres'
          rw [hji] at hcr
          exact hbres hcr
      · rw [if_neg heq]
        refine hinv.pend_none j hj ?_
        rintro ⟨h1, h2, h3⟩
        refine hcond ⟨h1, List.mem_append_left _ h2, ?_⟩
        intro hres'
        exact h3 ((hresiff j).mp hres')
  · have hbase : i0 = 0 ∨ chainRes S (i0 - 1) := by
      by_cases h0 : i0 = 0
      · exact Or.inl h0
      · right
        by_contra hc
        exact hblock ⟨h0, hc⟩
    have hstate : VkEnum.add_value (pending_count st + 1) st (chainOp names v i0).1
          (chainOp names v i0).2
        = VkEnum.apply_value (pending_count st + 1) st (chainName names i0) v := by
      by_cases h0 : i0 = 0
      · subst h0
        rfl
      · have hop2 : (chainOp names v i0).2
            = ConstantSource.aliasOf (chainName names (i0 - 1)) := by
          dsimp only [chainOp]
          rw [if_neg h0]
        rw [hop2]
        show VkEnum.add_value (pending_count st + 1) st (chainName names i0)
          (ConstantSource.aliasOf (chainName names (i0 - 1))) = _
        unfold VkEnum.add_value
        dsimp only
        rcases hbase with h | hres
        · exact absurd h h0
        · rw [hinv.resolved (i0 - 1) (by omega) hres]
    rw [hstate]
    have hEn : chainEnd S names.length names.length i0 < names.length :=
      chainEnd_lt S names.length names.length i0 hi0n
    have hwin : ∀ j, i0 < j → j ≤ chainEnd S names.length names.length i0 →
        j ∈ S ∧ j < names.length :=
      fun j h1 h2 => chainEnd_window S names.length names.length i0 j h1 h2
    have hmax : ¬ (chainEnd S names.length names.length i0 + 1 < names.length ∧
        (chainEnd S names.length names.length i0 + 1) ∈ S) :=
      chainEnd_max S names.length names.length i0 (by omega)
    have hi0E : i0 ≤ chainEnd S names.length names.length i0 :=
      chainEnd_ge S names.length names.length i0
    have hfuel : chainEnd S names.length names.length i0 - i0 ≤ pending_count st := by
      have hlen : ((List.range (chainEnd S names.length names.length i0 - i0)).map
          (fun k => chainName names (i0 + k))).length
          = chainEnd S names.length names.length i0 - i0 := by
        rw [List.length_map, List.length_range]
      have hnodup : ((List.range (chainEnd S names.length names.length i0 - i0)).map
          (fun k => chainName names (i0 + k))).Nodup := by
        refine List.Nodup.map_on ?_ (List.nodup_range _)
        intro x hx y hy hxy
        rw [List.mem_range] at hx hy
        have hxn : i0 + x < names.length := by omega
        have hyn : i0 + y < names.length := by omega
        have hinj := chainName_inj hnd hxn hyn hxy
        omega
      have hmem : ∀ x ∈ (List.range (chainEnd S names.length names.length i0 - i0)).map
          (fun k => chainName names (i0 + k)),
          dlookup st.name_to_alias_list x ≠ none := by
        intro x hx
        rw [List.mem_map] at hx
        obtain ⟨k, hk, rfl⟩ := hx
        rw [List.mem_range] at hk
        have h1 : i0 + k < names.length := by omega
        have h2 : i0 + k + 1 < names.length := by omega
        have h3 : (i0 + k + 1) ∈ S := (hwin (i0 + k + 1) (by omega) (by omega)).1
        have h4 : ¬ chainRes S (i0 + k) := chainRes_not hi0S (by omega)
        rw [hinv.pend_some (i0 + k) h1 h2 h3 h4]
        exact Option.some_ne_none _
      have hkey := distinct_keys_length _ st.name_to_alias_list hnodup hmem
      unfold pending_count
      omega
    have hntv1 : ∀ j, j < names.length → (chainRes S j ∨ (i0 ≤ j ∧ j < i0)) →
        dlookup st.name_to_value (chainName names j) = some v := by
      intro j hj hc
      rcases hc with h | h
      · exact hinv.resolved j hj h
      · omega
    have hntv0 : ∀ j, j < names.length → ¬ (chainRes S j ∨ (i0 ≤ j ∧ j < i0)) →
        dlookup st.name_to_value (chainName names j) = none := by
      intro j hj hc
      exact hinv.unresolved j hj (fun h => hc (Or.inl h))
    obtain ⟨c1, c2, c3, c4⟩ := chainUP names v S i0 hnd hi0S
      (chainEnd S names.length names.length i0 - i0) i0 st (pending_count st)
      (Nat.le_refl i0) hi0E rfl hEn hwin hmax (by omega) hntv1 hntv0
      hinv.pend_some hinv.pend_none
    have hext := chainRes_ext hwin hmax hi0S hi0E hEn hbase
    refine ⟨?_, ?_, ?_, ?_⟩
    · intro j hj hres
      exact c1 j hj ((hext j hj).mp hres)
    · intro j hj hres
      refine c2 j hj ?_
      intro hc
      exact hres ((hext j hj).mpr hc)
    · intro j hj hj1n hj1S hnres
      have hnotmid : ¬ (i0 ≤ j ∧ j ≤ chainEnd S names.length names.length i0) :=
        fun hc => hnres ((hext j hj).mpr (Or.inr hc))
      have hnresS : ¬ chainRes S j := fun hc => hnres ((hext j hj).mpr (Or.inl hc))
      rw [c4 j hj hnotmid]
      rcases List.mem_append.mp hj1S with hj1S' | hj1i0
      · exact hinv.pend_some j hj hj1n hj1S' hnresS
      · exfalso
        have hj1 : j + 1 = i0 := List.mem_singleton.mp hj1i0
        rcases hbase with h0 | hbres
        · omega
        · have hji : j = i0 - 1 := by omega
          rw [hji] at hnresS
          exact hnresS hbres
    · intro j hj hcond
      by_cases hmid : i0 ≤ j ∧ j ≤ chainEnd S names.length names.length i0
      · exact c3 j hj hmid.1 hmid.2
      · rw [c4 j hj hmid]
        refine hinv.pend_none j hj ?_
        rintro ⟨h1, h2, h3⟩
        refine hcond ⟨h1, List.mem_append_left _ h2, ?_⟩
        intro hres'
        rcases (hext j hj).mp hres' with h | h
        · exact h3 h
        · exact hmid h

/-- Running the chain's declarations for any duplicate-free index list
establishes the chain invariant for that index set. -/
theorem chainGen (names : List String) (v : Int) (nm : String) (bw : Nat)
    (hnd : names.Nodup) :
    ∀ l : List Nat, l.Nodup → (∀ i ∈ l, i < names.length) →
      ChainInv names v l (VkEnum.run_ops (VkEnum.mk0 nm bw) (l.map (chainOp names v))) := by
  intro l
  induction l using List.reverseRecOn with
  | nil =>
    intro _ _
    refine ⟨?_, ?_, ?_, ?_⟩
    · intro j hj hres
      exact absurd (hres 0 (Nat.zero_le j)) (List.not_mem_nil 0)
    · intro j hj _
      rfl
    · intro j hj hj1n hj1S _
      exact absurd hj1S (List.not_mem_nil _)
    · intro j hj _
      rfl
  | append_singleton l i0 ih =>
    intro hndl hbound
    have hndl' : l.Nodup := (List.nodup_append.mp hndl).1
    have hi0S : i0 ∉ l := by
      intro hmem
      exact (List.nodup_append.mp hndl).2.2 hmem (List.mem_singleton_self i0)
    have hbound' : ∀ i ∈ l, i < names.length :=
      fun i hi => hbound i (List.mem_append_left _ hi)
    have hi0n : i0 < names.length :=
      hbound i0 (List.mem_append_right _ (List.mem_singleton_self i0))
    have hinv := ih hndl' hbound'
    rw [List.map_append]
    have hmap : List.map (chainOp names v) [i0] = [chainOp names v i0] := rfl
    rw [hmap, VkEnum.run_ops_append]
    exact chainStep names v l (VkEnum.run_ops (VkEnum.mk0 nm bw) (l.map (chainOp names v)))
      i0 hnd hinv hi0S hi0n

/-- C2: for an alias chain of arbitrary length (member 0 declared with a
literal value, member `i > 0` declared as an alias of member `i - 1`),
declared in an arbitrary order (any duplicate-free enumeration of all the
chain indices), every member of the chain ends up mapped to the terminal
literal's value: unresolved aliases wait in the pending multimap and are
flushed recursively when their base resolves. -/
theorem C2_alias_chain_any_order (names : List String) (v : Int) (nm : String) (bw : Nat)
    (l : List Nat)
    (hnd : names.Nodup) (hndl : l.Nodup) (hb : ∀ i ∈ l, i < names.length)
    (hlen : names.length ≤ l.length) :
    ∀ i, i < names.length →
      dlookup (VkEnum.run_ops (VkEnum.mk0 nm bw) (l.map (chainOp names v))).name_to_value
        (chainName names i) = some v := by
  have hinv := chainGen names v nm bw hnd l hndl hb
  have hsub : l.toFinset ⊆ Finset.range names.length := by
    intro x hx
    rw [List.mem_toFinset] at hx
    rw [Finset.mem_range]
    exact hb x hx
  have hcard : (Finset.range names.length).card ≤ l.toFinset.card := by
    rw [List.toFinset_card_of_nodup hndl, Finset.card_range]
    exact hlen
  have heq : l.toFinset = Finset.range names.length :=
    Finset.eq_of_subset_of_card_le hsub hcard
  have hall : ∀ j, j < names.length → j ∈ l := by
    intro j hj
    rw [← List.mem_toFinset, heq, Finset.mem_range]
    exact hj
  intro i hi
  exact hinv.resolved i hi (fun j' hj' => hall j' (by omega))

theorem C2_alias_chain_any_order_witness :
    (["VK_CHAIN_A", "VK_CHAIN_B", "VK_CHAIN_C"] : List String).Nodup ∧
    (([2, 1, 0] : List Nat).Nodup ∧ (∀ i ∈ ([2, 1, 0] : List Nat), i < 3) ∧ 3 ≤ 3) ∧
    (∀ i, i < (["VK_CHAIN_A", "VK_CHAIN_B", "VK_CHAIN_C"] : List String).length →
      dlookup (VkEnum.run_ops (VkEnum.mk0 "VkChain" 32)
          (([2, 1, 0] : List Nat).map
            (chainOp ["VK_CHAIN_A", "VK_CHAIN_B", "VK_CHAIN_C"] 7))).name_to_value
        (chainName ["VK_CHAIN_A", "VK_CHAIN_B", "VK_CHAIN_C"] i) = some 7) :=
  ⟨by decide, ⟨by decide, by decide, by decide⟩,
   C2_alias_chain_any_order ["VK_CHAIN_A", "VK_CHAIN_B", "VK_CHAIN_C"] 7 "VkChain" 32
     [2, 1, 0] (by decide) (by decide) (by decide) (by decide)⟩
